import Mathlib

/-!
# diff-pdf bitmap viewer (`src/bmpviewer.cpp`)

A shallow embedding of `BitmapViewer` and proofs about it.

Conventions of the embedding

* Bytes are natural numbers; a byte buffer is a `List Nat`.
* Image and surface dimensions are natural numbers (cairo and wxImage never
  report a negative width, height or stride); the C `int` results
  `new_w`, `new_h` and all pointer coordinates are mathematical integers
  (signed overflow is undefined behaviour in C++).
* The zoom engine is embedded twice. In `UpdateBitmap`, `SetZoom` and
  `SetBestFitZoom` the zoom factor is a real number, as in the data model of
  the specification, and products and quotients are exact; these definitions
  carry the statements that do not depend on rounding (which branch is taken,
  which quality is chosen, which calls are made). In `Machine.UpdateBitmap`,
  `Machine.SetZoom` and `Machine.SetBestFitZoom` the factor is a floating-point
  value and every conversion, quotient and product is rounded as IEEE 754
  prescribes (round to nearest, ties to even, with subnormals, overflow to
  infinity and NaN); these carry the statements about the sizes computed.
* Reading the surface outside its buffer makes the conversion fail (`none`).
* Each handler returns the new widget state together with the list of calls it
  made into the toolkit and the gutter, in program order.
-/

namespace BmpViewer

/-! ## Pixel format conversion: `BitmapViewer::Set(cairo_surface_t*)` -/

/-- A cairo image surface: `cairo_image_surface_get_width`, `_get_height`,
`_get_stride` and `_get_data`. -/
structure Surface where
  width : Nat
  height : Nat
  stride : Nat
  data : List Nat
deriving DecidableEq, Repr

/-- A `wxImage`: width, height and the `GetData()` buffer (3 bytes per pixel). -/
structure Image where
  width : Nat
  height : Nat
  data : List Nat
deriving DecidableEq, Repr

/-- The inner loop `for ( int x = 0; x < w; x++ )` of `Set(surface)`: `rowOff` is
the offset of `p_in` in the surface buffer, `out` the bytes written through
`p_out` so far. -/
def convertRow (p_in : List Nat) (rowOff w x : Nat) (out : List Nat) :
    Option (List Nat) :=
  if x < w then
    match p_in[rowOff + 4 * x + 2]?, p_in[rowOff + 4 * x + 1]?,
        p_in[rowOff + 4 * x + 0]? with
    | some r, some g, some b => convertRow p_in rowOff w (x + 1) (out ++ [r, g, b])
    | _, _, _ => none
  else some out
termination_by w - x

/-- The outer loop `for ( int y = 0; y < h; y++, p_in += stride )`. -/
def convertRows (p_in : List Nat) (stride w h y rowOff : Nat) (out : List Nat) :
    Option (List Nat) :=
  if y < h then
    match convertRow p_in rowOff w 0 out with
    | some out1 => convertRows p_in stride w h (y + 1) (rowOff + stride) out1
    | none => none
  else some out
termination_by h - y

/-- The image `img` that `Set(cairo_surface_t*)` hands to `Set(const wxImage&)`. -/
def surfaceToImage (s : Surface) : Option Image :=
  match convertRows s.data s.stride s.width s.height 0 0 [] with
  | some out => some { width := s.width, height := s.height, data := out }
  | none => none

/-! ## Widget state -/

/-- A `wxPoint` / `wxSize`. -/
structure Point where
  x : Int
  y : Int
deriving DecidableEq, Repr

/-- The quality argument of `wxImage::Scale`: `wxIMAGE_QUALITY_NORMAL` or
`wxIMAGE_QUALITY_HIGH`. -/
inductive Quality where
  | normal
  | high
deriving DecidableEq, Repr

/-- What `UpdateBitmap` passes to `m_content->SetBitmap`: either
`wxBitmap(m_orig_image)` or `wxBitmap(m_orig_image.Scale(new_w, new_h, q))`;
`blank w h` is the constructor's `wxBitmap dummyBitmap(16, 16)`.
The resampling itself is done by the toolkit and is kept symbolic. -/
inductive Bitmap where
  | blank (w h : Nat)
  | ofImage (img : Image)
  | scaled (img : Image) (new_w new_h : Int) (q : Quality)
deriving DecidableEq, Repr

/-- Width of the displayed bitmap; `wxImage::Scale(w, h, q)` returns an image
of the requested size. -/
def Bitmap.width : Bitmap → Int
  | .blank w _ => (w : Int)
  | .ofImage img => (img.width : Int)
  | .scaled _ new_w _ _ => new_w

/-- Height of the displayed bitmap. -/
def Bitmap.height : Bitmap → Int
  | .blank _ h => (h : Int)
  | .ofImage img => (img.height : Int)
  | .scaled _ _ new_h _ => new_h

/-- Whether the displayed bitmap came out of `wxImage::Scale`. -/
def Bitmap.isResampled : Bitmap → Bool
  | .blank _ _ => false
  | .ofImage _ => false
  | .scaled _ _ _ _ => true

/-- The pixels of the displayed bitmap when it is the unscaled image. -/
def Bitmap.pixels? : Bitmap → Option (List Nat)
  | .blank _ _ => none
  | .ofImage img => some img.data
  | .scaled _ _ _ _ => none

/-- A call made by a handler into the toolkit or into the gutter. -/
inductive Effect where
  | setBitmap (b : Bitmap)
  | fitInside
  | updateViewPos (g : Nat)
  | scroll (x y : Int)
  | captureMouse
  | releaseMouse
  | skip
deriving DecidableEq, Repr

/-- The fields of `BitmapViewer` together with the toolkit state its handlers
read: `GetSize()`, `GetVirtualSize()`, `GetViewStart()` and `HasCapture()`.
`m_gutter` is `none` for `NULL` and `some g` for a gutter with identity `g`. -/
structure Viewer where
  m_gutter : Option Nat
  m_zoom_factor : ℚ
  m_orig_image : Image
  m_content : Bitmap
  m_draggingPage : Bool
  m_draggingLastMousePos : Point
  size : Point
  virtualSize : Point
  viewStart : Point
  hasCapture : Bool
deriving DecidableEq

/-- The two toolkit operations whose result the handlers depend on but whose
code is outside the repository: the view start after `Scroll(x, y)` and the
virtual size after `GetSizer()->FitInside(this)`. -/
structure Toolkit where
  Scroll : Viewer → Point → Point
  FitInside : Viewer → Point

/-- Modelled from the spec: the toolkit as the specification describes it.
`Scroll` applies the position it is given and `FitInside` resizes the virtual
content size to the displayed bitmap. -/
def specToolkit : Toolkit where
  Scroll := fun _ p => p
  FitInside := fun s => ⟨s.m_content.width, s.m_content.height⟩

/-- A `wxMouseEvent`: `LeftIsDown()` and `GetPosition()`. -/
structure MouseEvent where
  leftIsDown : Bool
  position : Point
deriving DecidableEq, Repr

/-- Modelled from the spec: the state after construction. The constructor in
`bmpviewer.cpp` sets `m_gutter = NULL` and `m_zoom_factor = 1.0` and installs a
16x16 dummy bitmap; the initial value of `m_draggingPage` comes from the
declaration in `bmpviewer.h`, which is missing, and the specification says the
widget starts with an empty image, idle and without capture. -/
def init (size : Point) : Viewer where
  m_gutter := none
  m_zoom_factor := 1
  m_orig_image := { width := 0, height := 0, data := [] }
  m_content := .blank 16 16
  m_draggingPage := false
  m_draggingLastMousePos := ⟨0, 0⟩
  size := size
  virtualSize := ⟨16, 16⟩
  viewStart := ⟨0, 0⟩
  hasCapture := false

/-! ## Zoom and rescale -/

/-- The C++ conversion `int(x)` of a floating-point value: truncation toward
zero. -/
def truncToInt (q : ℚ) : Int := Int.tdiv q.num (q.den : Int)

/-- The calls `if ( m_gutter ) m_gutter->UpdateViewPos(this);`. -/
def notifyGutter (s : Viewer) : List Effect :=
  match s.m_gutter with
  | some g => [Effect.updateViewPos g]
  | none => []

/-- The bitmap chosen by `BitmapViewer::UpdateBitmap`, with exact products (the
rounded products are in `Machine.scaledBitmap`). -/
def scaledBitmap (img : Image) (zoom : ℚ) : Bitmap :=
  let new_w : Int := truncToInt ((img.width : ℚ) * zoom)
  let new_h : Int := truncToInt ((img.height : ℚ) * zoom)
  if new_w ≠ (img.width : Int) ∨ new_h ≠ (img.height : Int) then
    Bitmap.scaled img new_w new_h (if zoom < 1 then Quality.high else Quality.normal)
  else
    Bitmap.ofImage img

/-- `BitmapViewer::UpdateBitmap`. -/
def UpdateBitmap (tk : Toolkit) (s : Viewer) : Viewer × List Effect :=
  let bmp := scaledBitmap s.m_orig_image s.m_zoom_factor
  let s1 := { s with m_content := bmp }
  let s2 := { s1 with virtualSize := tk.FitInside s1 }
  (s2, [Effect.setBitmap bmp, Effect.fitInside] ++ notifyGutter s2)

/-- `BitmapViewer::Set(const wxImage&)`. -/
def SetImage (tk : Toolkit) (image : Image) (s : Viewer) : Viewer × List Effect :=
  UpdateBitmap tk { s with m_orig_image := image }

/-- `BitmapViewer::Set(cairo_surface_t*)`; fails when the conversion reads
outside the surface buffer. -/
def SetSurface (tk : Toolkit) (surface : Surface) (s : Viewer) :
    Option (Viewer × List Effect) :=
  match surfaceToImage surface with
  | some img => some (SetImage tk img s)
  | none => none

/-- Modelled from the spec: `SetZoom(factor)`, which is defined in the missing
`bmpviewer.h`: it sets ZoomFactor to `factor` and recomputes the displayed
bitmap. -/
def SetZoom (tk : Toolkit) (factor : ℚ) (s : Viewer) : Viewer × List Effect :=
  UpdateBitmap tk { s with m_zoom_factor := factor }

/-- `BitmapViewer::SetBestFitZoom` with exact quotients (the rounded quotients
are in `Machine.SetBestFitZoom`). For an image of zero width or height the C++
quotient is infinite or NaN while the rational quotient is 0; the calls made do
not depend on the value of the factor. -/
def SetBestFitZoom (tk : Toolkit) (s : Viewer) : Viewer × List Effect :=
  let scale_x : ℚ := (s.size.x : ℚ) / (s.m_orig_image.width : ℚ)
  let scale_y : ℚ := (s.size.y : ℚ) / (s.m_orig_image.height : ℚ)
  SetZoom tk (min scale_x scale_y) s

/-- `BitmapViewer::AttachGutter`. -/
def AttachGutter (g : Option Nat) (s : Viewer) : Viewer × List Effect :=
  let s1 := { s with m_gutter := g }
  match g with
  | some k => (s1, [Effect.updateViewPos k])
  | none => (s1, [])

/-! ## Drag and pan -/

/-- `BitmapViewer::OnMouseDown`. -/
def OnMouseDown (event : MouseEvent) (s : Viewer) : Viewer × List Effect :=
  if !event.leftIsDown then
    (s, [Effect.skip])
  else
    let pos := event.position
    let s1 := { s with m_draggingPage := true, m_draggingLastMousePos := pos }
    if !s1.hasCapture then
      ({ s1 with hasCapture := true }, [Effect.captureMouse])
    else
      (s1, [])

/-- `BitmapViewer::OnMouseUp`. -/
def OnMouseUp (s : Viewer) : Viewer × List Effect :=
  let s1 := { s with m_draggingPage := false }
  if s1.hasCapture then
    ({ s1 with hasCapture := false }, [Effect.releaseMouse])
  else
    (s1, [])

/-- `BitmapViewer::OnMouseMove`. -/
def OnMouseMove (tk : Toolkit) (event : MouseEvent) (s : Viewer) :
    Viewer × List Effect :=
  if !s.m_draggingPage then
    (s, [Effect.skip])
  else
    let view_origin := s.viewStart
    let pos := event.position
    let delta : Point := ⟨pos.x - s.m_draggingLastMousePos.x, pos.y - s.m_draggingLastMousePos.y⟩
    let new_pos : Point := ⟨view_origin.x - delta.x, view_origin.y - delta.y⟩
    let total_x := s.virtualSize.x
    let total_y := s.virtualSize.y
    let new_x := max 0 (min new_pos.x total_x)
    let new_y := max 0 (min new_pos.y total_y)
    let s1 := { s with viewStart := tk.Scroll s ⟨new_x, new_y⟩ }
    ({ s1 with m_draggingLastMousePos := pos },
      [Effect.scroll new_x new_y] ++ notifyGutter s1)

/-- `BitmapViewer::OnMouseCaptureLost`. -/
def OnMouseCaptureLost (s : Viewer) : Viewer × List Effect :=
  let s1 := { s with m_draggingPage := false }
  if s1.hasCapture then
    ({ s1 with hasCapture := false }, [Effect.releaseMouse, Effect.skip])
  else
    (s1, [Effect.skip])

/-- `BitmapViewer::OnScrolling`. -/
def OnScrolling (s : Viewer) : Viewer × List Effect :=
  (s, notifyGutter s ++ [Effect.skip])

/-- `BitmapViewer::OnSizeChanged`. -/
def OnSizeChanged (s : Viewer) : Viewer × List Effect :=
  (s, notifyGutter s ++ [Effect.skip])

/-! ## Event sequences -/

/-- The pointer events the toolkit delivers to the widget. `captureLost revoked`
is a `wxMouseCaptureLostEvent`; `revoked` tells whether the toolkit has already
taken the capture away when the handler runs. -/
inductive Event where
  | leftDown (e : MouseEvent)
  | leftUp
  | motion (e : MouseEvent)
  | captureLost (revoked : Bool)
deriving DecidableEq, Repr

/-- Dispatch of one pointer event through the event table. -/
def step (tk : Toolkit) (ev : Event) (s : Viewer) : Viewer × List Effect :=
  match ev with
  | .leftDown e => OnMouseDown e s
  | .leftUp => OnMouseUp s
  | .motion e => OnMouseMove tk e s
  | .captureLost revoked =>
      OnMouseCaptureLost (if revoked then { s with hasCapture := false } else s)

/-- Events are processed strictly in delivery order; the calls made are
collected in order. -/
def run (tk : Toolkit) : List Event → Viewer → Viewer × List Effect
  | [], s => (s, [])
  | ev :: evs, s =>
      let r1 := step tk ev s
      let r2 := run tk evs r1.1
      (r2.1, r1.2 ++ r2.2)

/-- The positions passed to `Scroll` in a list of calls. -/
def scrollCalls : List Effect → List Point
  | [] => []
  | Effect.scroll x y :: es => ⟨x, y⟩ :: scrollCalls es
  | _ :: es => scrollCalls es

/-- The gutters whose `UpdateViewPos` is called in a list of calls. -/
def notifications : List Effect → List Nat
  | [] => []
  | Effect.updateViewPos g :: es => g :: notifications es
  | _ :: es => notifications es

/-- The candidate scroll origin `view_origin - delta` of `OnMouseMove`, before
the clamp. -/
def candidate (event : MouseEvent) (s : Viewer) : Point :=
  ⟨s.viewStart.x - (event.position.x - s.m_draggingLastMousePos.x),
   s.viewStart.y - (event.position.y - s.m_draggingLastMousePos.y)⟩

/-- No clamp engages on any move of the list: every candidate position lies
within `[0, virtualExtent]` on both axes. -/
def noClamp (tk : Toolkit) : List MouseEvent → Viewer → Bool
  | [], _ => true
  | e :: es, s =>
      decide (0 ≤ (candidate e s).x ∧ (candidate e s).x ≤ s.virtualSize.x ∧
        0 ≤ (candidate e s).y ∧ (candidate e s).y ≤ s.virtualSize.y) &&
      noClamp tk es (OnMouseMove tk e s).1

/-- The view-changing operations of the widget. A resize or scroll-bar event
carries the size or view start the toolkit reports when the handler runs. -/
inductive Op where
  | setImage (img : Image)
  | setSurface (surface : Surface)
  | setZoom (factor : ℚ)
  | setBestFitZoom
  | scrolling (viewStart : Point)
  | sizeChanged (size : Point)
  | dragMove (e : MouseEvent)

/-- Whether the operation is a pointer move. -/
def Op.isDragMove : Op → Bool
  | .dragMove _ => true
  | _ => false

/-- A surface whose rows fit its stride and whose buffer holds all its rows. -/
def Surface.wellFormed (s : Surface) : Prop :=
  4 * s.width ≤ s.stride ∧ s.stride * s.height ≤ s.data.length

instance (s : Surface) : Decidable s.wellFormed := by
  unfold Surface.wellFormed; infer_instance

/-- Whether the operation is well-formed input (a surface operation carries a
well-formed surface). -/
def Op.wellFormed : Op → Prop
  | .setSurface surface => surface.wellFormed
  | _ => True

/-- One view-changing operation. -/
def applyOp (tk : Toolkit) (op : Op) (s : Viewer) : Option (Viewer × List Effect) :=
  match op with
  | .setImage img => some (SetImage tk img s)
  | .setSurface surface => SetSurface tk surface s
  | .setZoom factor => some (SetZoom tk factor s)
  | .setBestFitZoom => some (SetBestFitZoom tk s)
  | .scrolling viewStart => some (OnScrolling { s with viewStart := viewStart })
  | .sizeChanged size => some (OnSizeChanged { s with size := size })
  | .dragMove e => some (OnMouseMove tk e s)

/-- A sequence of view-changing operations, in order; `none` if one fails. -/
def runOps (tk : Toolkit) : List Op → Viewer → Option (Viewer × List Effect)
  | [], s => some (s, [])
  | op :: ops, s =>
      match applyOp tk op s with
      | none => none
      | some r1 =>
          match runOps tk ops r1.1 with
          | none => none
          | some r2 => some (r2.1, r1.2 ++ r2.2)

/-- The bytes the conversion writes for pixel number `k` (row-major) of a
surface of width `w` and stride `stride`. -/
def pixelBytes (p_in : List Nat) (stride w k : Nat) : List Nat :=
  [p_in.getD ((k / w) * stride + 4 * (k % w) + 2) 0,
   p_in.getD ((k / w) * stride + 4 * (k % w) + 1) 0,
   p_in.getD ((k / w) * stride + 4 * (k % w) + 0) 0]

/-- The bytes written for the first `n` pixels. -/
def firstPixels (p_in : List Nat) (stride w : Nat) : Nat → List Nat
  | 0 => []
  | n + 1 => firstPixels p_in stride w n ++ pixelBytes p_in stride w n

/-- A 2x2 surface with stride 9 (one byte of row padding): pixel `(x, y)` is
stored as `(b, g, r, pad)` at offset `9 * y + 4 * x`. -/
def exampleSurface : Surface where
  width := 2
  height := 2
  stride := 9
  data := [11, 12, 13, 255, 21, 22, 23, 254, 77, 31, 32, 33, 253, 41, 42, 43, 252, 78]

/-- The quality `wxImage::Scale` was called with, if the bitmap was resampled. -/
def Bitmap.quality? : Bitmap → Option Quality
  | .scaled _ _ _ q => some q
  | _ => none

/-- A 5x5 image shown at zoom 0.75, in a 100x100 window. -/
def exampleZoomed : Viewer :=
  { init ⟨100, 100⟩ with
    m_orig_image := { width := 5, height := 5, data := List.replicate 75 0 }
    m_zoom_factor := 3 / 4 }

/-- The constructed widget with a 300x200 virtual area, scrolled to `(50, 60)`. -/
def exampleScrolled : Viewer :=
  { init ⟨100, 100⟩ with virtualSize := ⟨300, 200⟩, viewStart := ⟨50, 60⟩ }

/-- The same widget in the middle of a drag whose last pointer position is
`(10, 10)`. -/
def exampleDragging : Viewer :=
  { exampleScrolled with
    m_draggingPage := true, m_draggingLastMousePos := ⟨10, 10⟩, hasCapture := true }

/-- Two intermediate pointer positions of a drag. -/
def exampleMoves : List MouseEvent := [⟨true, ⟨0, 0⟩⟩, ⟨true, ⟨40, 30⟩⟩]

/-- The final pointer position of the drag. -/
def exampleLastMove : MouseEvent := ⟨true, ⟨20, 5⟩⟩

/-- One operation of every kind: a new image, best fit, zoom 2.0, a surface, a
scroll-bar event, a resize and a pointer move. -/
def exampleOps : List Op :=
  [.setImage ⟨1, 1, [1, 2, 3]⟩, .setBestFitZoom, .setZoom 2, .setSurface exampleSurface,
    .scrolling ⟨5, 5⟩, .sizeChanged ⟨640, 480⟩, .dragMove ⟨true, ⟨12, 15⟩⟩]

/-! ## Machine arithmetic: IEEE 754 binary floating point

The zoom engine again, with the floating-point operations of the source
rounded as the machine rounds them: every operation is evaluated in the type of
its operands and rounded once, to nearest with ties to even. Finite values are
rational numbers; signed zeros are not distinguished (every divisor in the
source is converted from an `int`, so it is never a negative zero). -/

/-- Round to the nearest integer, ties to the even one. -/
def roundHalfEven (y : ℚ) : Int :=
  if y - ⌊y⌋ < 1 / 2 then ⌊y⌋
  else if 1 / 2 < y - ⌊y⌋ then ⌊y⌋ + 1
  else if ⌊y⌋ % 2 = 0 then ⌊y⌋ else ⌊y⌋ + 1

/-- A binary floating-point format: the number of significand bits (hidden bit
included) and the exponents of the smallest and largest normal binade. -/
structure FloatFormat where
  prec : Nat
  emin : Int
  emax : Int
deriving DecidableEq, Repr

/-- The C type `float`. -/
def binary32 : FloatFormat := ⟨24, -126, 127⟩

/-- The C type `double`. -/
def binary64 : FloatFormat := ⟨53, -1022, 1023⟩

/-- The exponent `e` of the binade `[2^e, 2^(e+1))` that holds `|x|`, not below
`emin` (the subnormal range shares the spacing of the smallest normal binade). -/
def FloatFormat.exponent (fmt : FloatFormat) (x : ℚ) : Int :=
  max (Int.log 2 |x|) fmt.emin

/-- The spacing of the representable numbers around `x`. -/
def FloatFormat.ulp (fmt : FloatFormat) (x : ℚ) : ℚ :=
  (2 : ℚ) ^ (fmt.exponent x - ((fmt.prec : Int) - 1))

/-- Round-to-nearest, ties-to-even, before the overflow check. -/
def FloatFormat.roundQ (fmt : FloatFormat) (x : ℚ) : ℚ :=
  (roundHalfEven (x / fmt.ulp x) : ℚ) * fmt.ulp x

/-- A value of a floating-point type. -/
inductive FloatVal where
  | finite (q : ℚ)
  | posInf
  | negInf
  | nan
deriving DecidableEq

/-- Rounding of an exact result to the format: a result at or beyond
`2^(emax+1)` overflows to an infinity. -/
def FloatFormat.round (fmt : FloatFormat) (x : ℚ) : FloatVal :=
  if |fmt.roundQ x| < (2 : ℚ) ^ (fmt.emax + 1) then FloatVal.finite (fmt.roundQ x)
  else if 0 < x then FloatVal.posInf
  else FloatVal.negInf

/-- Conversion of an `int` to the format, as in `float(GetSize().x)` and in the
promotion of `GetWidth()` in `GetWidth() * m_zoom_factor`. -/
def FloatVal.ofInt (fmt : FloatFormat) (n : Int) : FloatVal := fmt.round (n : ℚ)

/-- The comparison `a < b`; false when an operand is a NaN. -/
def FloatVal.lt : FloatVal → FloatVal → Bool
  | .nan, _ => false
  | _, .nan => false
  | .finite a, .finite b => decide (a < b)
  | .finite _, .posInf => true
  | .finite _, .negInf => false
  | .posInf, _ => false
  | .negInf, .negInf => false
  | .negInf, _ => true

/-- The template `std::min(a, b)`: `(b < a) ? b : a`. -/
def FloatVal.min (a b : FloatVal) : FloatVal := if b.lt a then b else a

/-- The product `a * b` in the format. -/
def FloatVal.mul (fmt : FloatFormat) : FloatVal → FloatVal → FloatVal
  | .nan, _ => .nan
  | _, .nan => .nan
  | .finite a, .finite b => fmt.round (a * b)
  | .finite a, .posInf => if a = 0 then .nan else if 0 < a then .posInf else .negInf
  | .finite a, .negInf => if a = 0 then .nan else if 0 < a then .negInf else .posInf
  | .posInf, .finite b => if b = 0 then .nan else if 0 < b then .posInf else .negInf
  | .negInf, .finite b => if b = 0 then .nan else if 0 < b then .negInf else .posInf
  | .posInf, .posInf => .posInf
  | .posInf, .negInf => .negInf
  | .negInf, .posInf => .negInf
  | .negInf, .negInf => .posInf

/-- The quotient `a / b` in the format; a zero divisor counts as `+0`. -/
def FloatVal.div (fmt : FloatFormat) : FloatVal → FloatVal → FloatVal
  | .nan, _ => .nan
  | _, .nan => .nan
  | .finite a, .finite b =>
      if b = 0 then (if a = 0 then .nan else if 0 < a then .posInf else .negInf)
      else fmt.round (a / b)
  | .finite _, .posInf => .finite 0
  | .finite _, .negInf => .finite 0
  | .posInf, .finite b => if 0 ≤ b then .posInf else .negInf
  | .negInf, .finite b => if 0 ≤ b then .negInf else .posInf
  | .posInf, .posInf => .nan
  | .posInf, .negInf => .nan
  | .negInf, .posInf => .nan
  | .negInf, .negInf => .nan

/-- The conversion `int(x)`: truncation toward zero; undefined (`none`) for a
NaN, an infinity and a value whose truncation is not a 32-bit `int`. -/
def FloatVal.toInt : FloatVal → Option Int
  | .finite q =>
      if -2147483648 ≤ truncToInt q ∧ truncToInt q ≤ 2147483647 then some (truncToInt q)
      else none
  | _ => none

/-- The floating-point type of `m_zoom_factor` and of the parameter of
`SetZoom`. Both are declared in `bmpviewer.h`, which is missing, so the type is
a parameter; a `float` converts to either type without change. -/
inductive CFloat where
  | float
  | double
deriving DecidableEq, Repr

/-- The format of a C floating-point type. -/
def CFloat.format : CFloat → FloatFormat
  | .float => binary32
  | .double => binary64

namespace Machine

/-- The widget state with `m_zoom_factor` as a floating-point value. A finite
value may be any rational number, representable in the type or not, so the
states include every state the program can reach. -/
structure Viewer where
  m_gutter : Option Nat
  m_zoom_factor : FloatVal
  m_orig_image : Image
  m_content : Bitmap
  m_draggingPage : Bool
  m_draggingLastMousePos : Point
  size : Point
  virtualSize : Point
  viewStart : Point
  hasCapture : Bool
deriving DecidableEq

/-- The calls `if ( m_gutter ) m_gutter->UpdateViewPos(this);`. -/
def notifyGutter (s : Viewer) : List Effect :=
  match s.m_gutter with
  | some g => [Effect.updateViewPos g]
  | none => []

/-- The bitmap chosen by `BitmapViewer::UpdateBitmap`: `new_w` and `new_h` are
`int(GetWidth() * m_zoom_factor)` and `int(GetHeight() * m_zoom_factor)`, the
products taken in the type `T` of the zoom factor; `none` when a conversion to
`int` is undefined. -/
def scaledBitmap (T : CFloat) (img : Image) (zoom : FloatVal) : Option Bitmap :=
  match (FloatVal.mul T.format (FloatVal.ofInt T.format (img.width : Int)) zoom).toInt,
      (FloatVal.mul T.format (FloatVal.ofInt T.format (img.height : Int)) zoom).toInt with
  | some new_w, some new_h =>
      if new_w ≠ (img.width : Int) ∨ new_h ≠ (img.height : Int) then
        some (Bitmap.scaled img new_w new_h
          (if zoom.lt (FloatVal.finite 1) then Quality.high else Quality.normal))
      else
        some (Bitmap.ofImage img)
  | _, _ => none

/-- `BitmapViewer::UpdateBitmap`; `fitInside` is the virtual size after
`GetSizer()->FitInside(this)`. -/
def UpdateBitmap (T : CFloat) (fitInside : Viewer → Point) (s : Viewer) :
    Option (Viewer × List Effect) :=
  match scaledBitmap T s.m_orig_image s.m_zoom_factor with
  | some bmp =>
      let s1 := { s with m_content := bmp }
      let s2 := { s1 with virtualSize := fitInside s1 }
      some (s2, [Effect.setBitmap bmp, Effect.fitInside] ++ notifyGutter s2)
  | none => none

/-- Modelled from the spec: `SetZoom(factor)`, which is defined in the missing
`bmpviewer.h`: it sets ZoomFactor to `factor` and recomputes the displayed
bitmap. -/
def SetZoom (T : CFloat) (fitInside : Viewer → Point) (factor : FloatVal) (s : Viewer) :
    Option (Viewer × List Effect) :=
  UpdateBitmap T fitInside { s with m_zoom_factor := factor }

/-- `BitmapViewer::SetBestFitZoom`: `scale_x` and `scale_y` are declared `float`,
so the conversions and the two divisions are in `binary32`. -/
def SetBestFitZoom (T : CFloat) (fitInside : Viewer → Point) (s : Viewer) :
    Option (Viewer × List Effect) :=
  let scale_x := FloatVal.div binary32 (FloatVal.ofInt binary32 s.size.x)
    (FloatVal.ofInt binary32 (s.m_orig_image.width : Int))
  let scale_y := FloatVal.div binary32 (FloatVal.ofInt binary32 s.size.y)
    (FloatVal.ofInt binary32 (s.m_orig_image.height : Int))
  SetZoom T fitInside (FloatVal.min scale_x scale_y) s

/-- The constructed widget of the given window size showing `img` at `zoom`. -/
def viewerOf (size : Point) (img : Image) (zoom : FloatVal) : Viewer where
  m_gutter := none
  m_zoom_factor := zoom
  m_orig_image := img
  m_content := .blank 16 16
  m_draggingPage := false
  m_draggingLastMousePos := ⟨0, 0⟩
  size := size
  virtualSize := ⟨16, 16⟩
  viewStart := ⟨0, 0⟩
  hasCapture := false

/-- Modelled from the spec: `FitInside` resizes the virtual content size to the
displayed bitmap. -/
def specFitInside (s : Viewer) : Point := ⟨s.m_content.width, s.m_content.height⟩

end Machine

namespace Machine

/-- A 5x5 image at zoom factor 0.75 in a 100x100 window. -/
def exampleZoomed : Viewer :=
  viewerOf ⟨100, 100⟩ ⟨5, 5, List.replicate 75 0⟩ (FloatVal.finite (3 / 4))

/-- A 100x100 image at the `float` nearest to 0.01, which is
`5368709 / 2^29`. -/
def exampleHundredth : Viewer :=
  viewerOf ⟨100, 100⟩ ⟨100, 100, List.replicate 30000 0⟩
    (FloatVal.finite (5368709 / 536870912))

/-- A 1000x500 image in a 500x500 window. -/
def exampleBestFit : Viewer :=
  viewerOf ⟨500, 500⟩ ⟨1000, 500, []⟩ (FloatVal.finite 1)

/-- An A4 page rendered at 150 dpi, 1240x1754, in a 500x500 window. -/
def examplePage : Viewer :=
  viewerOf ⟨500, 500⟩ ⟨1240, 1754, []⟩ (FloatVal.finite 1)

end Machine

/-! ## Proofs: pixel format conversion -/

theorem getElem?_eq_some_getD (l : List Nat) (i : Nat) (h : i < l.length) :
    l[i]? = some (l.getD i 0) := by
  simp [List.getD, List.getElem?_eq_getElem h]

theorem firstPixels_length (p_in : List Nat) (stride w n : Nat) :
    (firstPixels p_in stride w n).length = 3 * n := by
  induction n with
  | zero => simp [firstPixels]
  | succ n ih => simp [firstPixels, pixelBytes, ih]; omega

theorem firstPixels_getElem? (p_in : List Nat) (stride w n k j : Nat) (hk : k < n)
    (hj : j < 3) :
    (firstPixels p_in stride w n)[3 * k + j]? = (pixelBytes p_in stride w k)[j]? := by
  induction n with
  | zero => omega
  | succ n ih =>
    rcases Nat.lt_succ_iff_lt_or_eq.mp hk with h | h
    · have hlt : 3 * k + j < (firstPixels p_in stride w n).length := by
        rw [firstPixels_length]; omega
      rw [firstPixels, List.getElem?_append_left hlt]
      exact ih h
    · subst h
      have hge : (firstPixels p_in stride w k).length ≤ 3 * k + j := by
        rw [firstPixels_length]; omega
      rw [firstPixels, List.getElem?_append_right hge, firstPixels_length]
      congr 1
      omega

theorem firstPixels_congr (p q : List Nat) (sp sq w n : Nat)
    (h : ∀ k, k < n → pixelBytes p sp w k = pixelBytes q sq w k) :
    firstPixels p sp w n = firstPixels q sq w n := by
  induction n with
  | zero => rfl
  | succ n ih =>
    rw [firstPixels, firstPixels, ih (fun k hk => h k (Nat.lt_succ_of_lt hk)),
      h n (Nat.lt_succ_self n)]

theorem pixel_index (w x y : Nat) (hx : x < w) :
    (y * w + x) / w = y ∧ (y * w + x) % w = x := by
  have hw : 0 < w := by omega
  constructor
  · rw [Nat.add_comm, Nat.add_mul_div_right _ _ hw, Nat.div_eq_of_lt hx, Nat.zero_add]
  · rw [Nat.add_comm, Nat.add_mul_mod_self_right, Nat.mod_eq_of_lt hx]

theorem convertRow_eq (p_in : List Nat) (stride w y : Nat)
    (hb : y * stride + 4 * w ≤ p_in.length) :
    ∀ n x, w - x = n → x ≤ w →
      convertRow p_in (y * stride) w x (firstPixels p_in stride w (y * w + x)) =
        some (firstPixels p_in stride w (y * w + w)) := by
  intro n
  induction n with
  | zero =>
    intro x hn hx
    have hxw : x = w := by omega
    subst hxw
    rw [convertRow]
    simp
  | succ n ih =>
    intro x hn hx
    have hxw : x < w := by omega
    rw [convertRow]
    rw [if_pos hxw]
    rw [getElem?_eq_some_getD p_in (y * stride + 4 * x + 2) (by omega),
      getElem?_eq_some_getD p_in (y * stride + 4 * x + 1) (by omega),
      getElem?_eq_some_getD p_in (y * stride + 4 * x + 0) (by omega)]
    have hstep : firstPixels p_in stride w (y * w + x) ++
        [p_in.getD (y * stride + 4 * x + 2) 0, p_in.getD (y * stride + 4 * x + 1) 0,
          p_in.getD (y * stride + 4 * x + 0) 0] =
        firstPixels p_in stride w (y * w + (x + 1)) := by
      obtain ⟨hd, hm⟩ := pixel_index w x y hxw
      rw [← Nat.add_assoc, firstPixels, pixelBytes, hd, hm]
    simp only [hstep]
    exact ih (x + 1) (by omega) (by omega)

theorem convertRows_eq (p_in : List Nat) (stride w h : Nat) (hs : 4 * w ≤ stride)
    (hlen : stride * h ≤ p_in.length) :
    ∀ n y, h - y = n → y ≤ h →
      convertRows p_in stride w h y (y * stride) (firstPixels p_in stride w (y * w)) =
        some (firstPixels p_in stride w (h * w)) := by
  intro n
  induction n with
  | zero =>
    intro y hn hy
    have hyh : y = h := by omega
    subst hyh
    rw [convertRows]
    simp
  | succ n ih =>
    intro y hn hy
    have hyh : y < h := by omega
    have hrow : y * stride + 4 * w ≤ p_in.length := by
      have h1 : (y + 1) * stride ≤ h * stride := Nat.mul_le_mul_right _ hyh
      have h2 : h * stride = stride * h := Nat.mul_comm _ _
      have h3 : (y + 1) * stride = y * stride + stride := Nat.succ_mul _ _
      omega
    rw [convertRows]
    rw [if_pos hyh]
    have hr := convertRow_eq p_in stride w y hrow (w - 0) 0 rfl (Nat.zero_le _)
    rw [Nat.add_zero] at hr
    rw [hr]
    have h3 : y * w + w = (y + 1) * w := (Nat.succ_mul _ _).symm
    have h4 : y * stride + stride = (y + 1) * stride := (Nat.succ_mul _ _).symm
    simp only [h3, h4]
    exact ih (y + 1) (by omega) (by omega)

theorem surfaceToImage_eq (s : Surface) (hs : 4 * s.width ≤ s.stride)
    (hlen : s.stride * s.height ≤ s.data.length) :
    surfaceToImage s =
      some (Image.mk s.width s.height
        (firstPixels s.data s.stride s.width (s.height * s.width))) := by
  have h := convertRows_eq s.data s.stride s.width s.height hs hlen (s.height - 0) 0 rfl
    (Nat.zero_le _)
  simp only [Nat.zero_mul] at h
  rw [surfaceToImage]
  have h0 : firstPixels s.data s.stride s.width 0 = [] := rfl
  rw [h0] at h
  rw [h]

/-- C1: for a surface whose rows fit its stride (`stride ≥ 4 * width`) and whose
buffer holds all rows, `Set(surface)` succeeds and hands `Set(image)` an image
of the surface's width and height with exactly `w * h * 3` bytes, whose pixel
`(x, y)` at offset `3 * (y * w + x)` is `(r, g, b)` when the surface stores
`(b, g, r, pad)` at offset `y * stride + 4 * x`; any other well-formed surface
of the same size (whatever its stride, pad bytes and row padding) that agrees
on the blue, green and red bytes of every pixel gives the same image. -/
theorem Set_surface_pixels (s : Surface) (hs : 4 * s.width ≤ s.stride)
    (hlen : s.stride * s.height ≤ s.data.length) :
    ∃ img, surfaceToImage s = some img ∧
      (∀ tk v, SetSurface tk s v = some (SetImage tk img v)) ∧
      img.width = s.width ∧ img.height = s.height ∧
      img.data.length = s.width * s.height * 3 ∧
      (∀ x y b g r, x < s.width → y < s.height →
        s.data[y * s.stride + 4 * x]? = some b →
        s.data[y * s.stride + 4 * x + 1]? = some g →
        s.data[y * s.stride + 4 * x + 2]? = some r →
        img.data[3 * (y * s.width + x)]? = some r ∧
        img.data[3 * (y * s.width + x) + 1]? = some g ∧
        img.data[3 * (y * s.width + x) + 2]? = some b) ∧
      (∀ t : Surface, t.width = s.width → t.height = s.height →
        4 * t.width ≤ t.stride → t.stride * t.height ≤ t.data.length →
        (∀ x y c, x < s.width → y < s.height → c < 3 →
          t.data[y * t.stride + 4 * x + c]? = s.data[y * s.stride + 4 * x + c]?) →
        surfaceToImage t = some img) := by
  refine ⟨_, surfaceToImage_eq s hs hlen, ?_, rfl, rfl, ?_, ?_, ?_⟩
  · intro tk v
    rw [SetSurface, surfaceToImage_eq s hs hlen]
  · show (firstPixels s.data s.stride s.width (s.height * s.width)).length = _
    rw [firstPixels_length, Nat.mul_comm s.height s.width, Nat.mul_comm]
  · intro x y b g r hx hy hb hg hr
    show (firstPixels s.data s.stride s.width (s.height * s.width))[_]? = _ ∧
      (firstPixels s.data s.stride s.width (s.height * s.width))[_]? = _ ∧
      (firstPixels s.data s.stride s.width (s.height * s.width))[_]? = _
    have hk : y * s.width + x < s.height * s.width := by
      have h1 : (y + 1) * s.width ≤ s.height * s.width := Nat.mul_le_mul_right _ hy
      have h2 : (y + 1) * s.width = y * s.width + s.width := Nat.succ_mul _ _
      omega
    obtain ⟨hd, hm⟩ := pixel_index s.width x y hx
    have e0 := firstPixels_getElem? s.data s.stride s.width _ _ 0 hk (by omega)
    have e1 := firstPixels_getElem? s.data s.stride s.width _ _ 1 hk (by omega)
    have e2 := firstPixels_getElem? s.data s.stride s.width _ _ 2 hk (by omega)
    rw [Nat.add_zero] at e0
    rw [e0, e1, e2]
    simp [pixelBytes, hd, hm, hb, hg, hr]
  · intro t hw hh hts htlen hagree
    rw [surfaceToImage_eq t hts htlen, hw, hh]
    congr 2
    apply firstPixels_congr
    intro k hk
    have hwpos : 0 < s.width := by
      rcases Nat.eq_zero_or_pos s.width with h0 | h0
      · rw [h0] at hk; simp at hk
      · exact h0
    have hx : k % s.width < s.width := Nat.mod_lt _ hwpos
    have hy : k / s.width < s.height := by
      rw [Nat.div_lt_iff_lt_mul hwpos]; exact hk
    have a0 := hagree (k % s.width) (k / s.width) 0 hx hy (by omega)
    have a1 := hagree (k % s.width) (k / s.width) 1 hx hy (by omega)
    have a2 := hagree (k % s.width) (k / s.width) 2 hx hy (by omega)
    simp only [pixelBytes, List.getD, List.get?_eq_getElem?, a0, a1, a2]

/-- The conversion of the example surface: both hypotheses hold and the image
has 12 bytes. -/
theorem Set_surface_pixels_witness :
    4 * exampleSurface.width ≤ exampleSurface.stride ∧
    exampleSurface.stride * exampleSurface.height ≤ exampleSurface.data.length ∧
    ∃ img, surfaceToImage exampleSurface = some img ∧ img.data.length = 12 := by
  refine ⟨by decide, by decide, ?_⟩
  obtain ⟨img, h1, _, _, _, h5, _⟩ :=
    Set_surface_pixels exampleSurface (by decide) (by decide)
  exact ⟨img, h1, h5⟩

theorem exampleSurface_converted :
    surfaceToImage exampleSurface =
      some (Image.mk 2 2 [13, 12, 11, 23, 22, 21, 33, 32, 31, 43, 42, 41]) := by
  rw [surfaceToImage_eq exampleSurface (by decide) (by decide)]
  rfl

/-! ## Proofs: zoom and rescale -/

theorem truncToInt_of_nonneg (q : ℚ) (h : 0 ≤ q) : truncToInt q = ⌊q⌋ := by
  rw [truncToInt, Rat.floor_def,
    Int.tdiv_eq_ediv (Rat.num_nonneg.mpr h) (Int.natCast_nonneg _)]

theorem truncToInt_neg (q : ℚ) : truncToInt (-q) = -truncToInt q := by
  simp [truncToInt]

theorem truncToInt_intCast (n : Int) : truncToInt (n : ℚ) = n := by
  simp [truncToInt]

theorem truncToInt_natCast (n : Nat) : truncToInt (n : ℚ) = (n : Int) := by
  simp [truncToInt]

theorem truncToInt_le (q : ℚ) (n : Int) (h : q ≤ (n : ℚ)) : truncToInt q ≤ n := by
  rcases le_or_lt 0 q with h0 | h0
  · rw [truncToInt_of_nonneg q h0]
    exact Int.floor_le_iff.mpr (lt_of_le_of_lt h (by simp))
  · have h1 : truncToInt q = -truncToInt (-q) := by rw [truncToInt_neg]; simp
    rw [h1, truncToInt_of_nonneg (-q) (by linarith), ← Int.ceil_neg, neg_neg]
    exact Int.ceil_le.mpr h

theorem scaledBitmap_width (img : Image) (zoom : ℚ) :
    (scaledBitmap img zoom).width = truncToInt ((img.width : ℚ) * zoom) := by
  unfold scaledBitmap
  simp only
  split
  · rfl
  · next h =>
    have h1 := not_or.mp h
    simp only [ne_eq, not_not] at h1
    rw [h1.1]; rfl

theorem scaledBitmap_height (img : Image) (zoom : ℚ) :
    (scaledBitmap img zoom).height = truncToInt ((img.height : ℚ) * zoom) := by
  unfold scaledBitmap
  simp only
  split
  · rfl
  · next h =>
    have h1 := not_or.mp h
    simp only [ne_eq, not_not] at h1
    rw [h1.2]; rfl

theorem UpdateBitmap_content (tk : Toolkit) (s : Viewer) :
    (UpdateBitmap tk s).1.m_content = scaledBitmap s.m_orig_image s.m_zoom_factor := rfl

theorem scaledBitmap_of_dims_eq (img : Image) (zoom : ℚ)
    (hw : truncToInt ((img.width : ℚ) * zoom) = (img.width : Int))
    (hh : truncToInt ((img.height : ℚ) * zoom) = (img.height : Int)) :
    scaledBitmap img zoom = Bitmap.ofImage img := by
  unfold scaledBitmap
  simp [hw, hh]

theorem scaledBitmap_of_dims_ne (img : Image) (zoom : ℚ)
    (h : truncToInt ((img.width : ℚ) * zoom) ≠ (img.width : Int) ∨
      truncToInt ((img.height : ℚ) * zoom) ≠ (img.height : Int)) :
    scaledBitmap img zoom =
      Bitmap.scaled img (truncToInt ((img.width : ℚ) * zoom))
        (truncToInt ((img.height : ℚ) * zoom))
        (if zoom < 1 then Quality.high else Quality.normal) := by
  unfold scaledBitmap
  simp only
  rw [if_pos h]

theorem scaledBitmap_one (img : Image) : scaledBitmap img 1 = Bitmap.ofImage img := by
  apply scaledBitmap_of_dims_eq
  · rw [mul_one, truncToInt_natCast]
  · rw [mul_one, truncToInt_natCast]

theorem truncToInt_lt_natCast (q : ℚ) (n : Nat) (hn : 0 < n) (h : q < (n : ℚ)) :
    truncToInt q < (n : Int) := by
  rcases le_or_lt 0 q with h0 | h0
  · rw [truncToInt_of_nonneg q h0, Int.floor_lt]
    exact_mod_cast h
  · have h1 : truncToInt q ≤ 0 := truncToInt_le q 0 (by exact_mod_cast h0.le)
    have h2 : (0 : Int) < (n : Int) := by exact_mod_cast hn
    omega

/-- C9: a press event that does not report the primary button as held, and a
pointer-move event received while idle, only call `event.Skip()`: the whole
widget state (drag state, last pointer position, capture, scroll position, zoom
and image) is returned unchanged and no gutter notification is issued. -/
theorem ignored_pointer_events :
    (∀ (e : MouseEvent) (s : Viewer), e.leftIsDown = false →
      OnMouseDown e s = (s, [Effect.skip]) ∧ notifications (OnMouseDown e s).2 = []) ∧
    (∀ (tk : Toolkit) (e : MouseEvent) (s : Viewer), s.m_draggingPage = false →
      OnMouseMove tk e s = (s, [Effect.skip]) ∧
      notifications (OnMouseMove tk e s).2 = []) := by
  constructor
  · intro e s h
    have h1 : OnMouseDown e s = (s, [Effect.skip]) := by
      unfold OnMouseDown
      simp [h]
    exact ⟨h1, by rw [h1]; rfl⟩
  · intro tk e s h
    have h1 : OnMouseMove tk e s = (s, [Effect.skip]) := by
      unfold OnMouseMove
      simp [h]
    exact ⟨h1, by rw [h1]; rfl⟩

/-- A right-button press and a move while idle, on the constructed widget. -/
theorem ignored_pointer_events_witness :
    OnMouseDown ⟨false, ⟨3, 4⟩⟩ (init ⟨100, 100⟩) = (init ⟨100, 100⟩, [Effect.skip]) ∧
    OnMouseMove specToolkit ⟨true, ⟨3, 4⟩⟩ (init ⟨100, 100⟩) =
      (init ⟨100, 100⟩, [Effect.skip]) :=
  ⟨(ignored_pointer_events.1 ⟨false, ⟨3, 4⟩⟩ (init ⟨100, 100⟩) rfl).1,
   (ignored_pointer_events.2 specToolkit ⟨true, ⟨3, 4⟩⟩ (init ⟨100, 100⟩) rfl).1⟩

theorem step_capture_invariant (tk : Toolkit) (ev : Event) (s : Viewer)
    (h : s.hasCapture = s.m_draggingPage) :
    (step tk ev s).1.hasCapture = (step tk ev s).1.m_draggingPage := by
  cases ev with
  | leftDown e =>
    cases hl : e.leftIsDown <;> cases hc : s.hasCapture <;>
      simp [step, OnMouseDown, hl, hc, ← h]
  | leftUp =>
    cases hc : s.hasCapture <;> simp [step, OnMouseUp, hc]
  | motion e =>
    cases hd : s.m_draggingPage <;> simp [step, OnMouseMove, hd, h]
  | captureLost revoked =>
    cases revoked <;> cases hc : s.hasCapture <;> simp [step, OnMouseCaptureLost, hc]

theorem run_capture_invariant (tk : Toolkit) (evs : List Event) :
    ∀ s : Viewer, s.hasCapture = s.m_draggingPage →
      (run tk evs s).1.hasCapture = (run tk evs s).1.m_draggingPage := by
  induction evs with
  | nil => intro s h; exact h
  | cons ev evs ih =>
    intro s h
    exact ih (step tk ev s).1 (step_capture_invariant tk ev s h)

/-- C6: starting from the constructed state (idle, capture not held), after
every sequence of press, release, move and capture-lost events, pointer capture
is held if and only if the widget is dragging. -/
theorem capture_iff_dragging (tk : Toolkit) (size : Point) (evs : List Event) :
    (run tk evs (init size)).1.hasCapture = true ↔
      (run tk evs (init size)).1.m_draggingPage = true := by
  rw [run_capture_invariant tk evs (init size) rfl]

theorem OnMouseMove_dragging (tk : Toolkit) (e : MouseEvent) (s : Viewer)
    (hd : s.m_draggingPage = true) :
    OnMouseMove tk e s =
      ({ s with
          viewStart := tk.Scroll s ⟨max 0 (min (candidate e s).x s.virtualSize.x),
            max 0 (min (candidate e s).y s.virtualSize.y)⟩,
          m_draggingLastMousePos := e.position },
        [Effect.scroll (max 0 (min (candidate e s).x s.virtualSize.x))
          (max 0 (min (candidate e s).y s.virtualSize.y))] ++ notifyGutter s) := by
  unfold OnMouseMove
  simp [hd, candidate, notifyGutter]

theorem clamp_bounds (a t : Int) (ht : 0 ≤ t) :
    0 ≤ max 0 (min a t) ∧ max 0 (min a t) ≤ t := by
  constructor
  · exact le_max_left _ _
  · exact max_le ht (min_le_right _ _)

theorem scrollCalls_append (a b : List Effect) :
    scrollCalls (a ++ b) = scrollCalls a ++ scrollCalls b := by
  induction a with
  | nil => rfl
  | cons e a ih => cases e <;> simp [scrollCalls, ih]

theorem scrollCalls_notifyGutter (s : Viewer) : scrollCalls (notifyGutter s) = [] := by
  unfold notifyGutter
  cases s.m_gutter <;> rfl

theorem run_moves_clamped (tk : Toolkit) (moves : List MouseEvent) :
    ∀ s : Viewer, s.m_draggingPage = true → 0 ≤ s.virtualSize.x → 0 ≤ s.virtualSize.y →
      (scrollCalls (run tk (moves.map Event.motion) s).2).length = moves.length ∧
      (∀ p ∈ scrollCalls (run tk (moves.map Event.motion) s).2,
        0 ≤ p.x ∧ p.x ≤ s.virtualSize.x ∧ 0 ≤ p.y ∧ p.y ≤ s.virtualSize.y) ∧
      ((∀ v q, tk.Scroll v q = q) → moves ≠ [] →
        0 ≤ (run tk (moves.map Event.motion) s).1.viewStart.x ∧
        (run tk (moves.map Event.motion) s).1.viewStart.x ≤ s.virtualSize.x ∧
        0 ≤ (run tk (moves.map Event.motion) s).1.viewStart.y ∧
        (run tk (moves.map Event.motion) s).1.viewStart.y ≤ s.virtualSize.y) := by
  induction moves with
  | nil =>
    intro s _ _ _
    refine ⟨rfl, ?_, ?_⟩
    · intro p hp; simp [run, scrollCalls] at hp
    · intro _ h; exact absurd rfl h
  | cons e es ih =>
    intro s hd hx hy
    have hstep := OnMouseMove_dragging tk e s hd
    have hrun : run tk ((e :: es).map Event.motion) s =
        ((run tk (es.map Event.motion) (OnMouseMove tk e s).1).1,
          (OnMouseMove tk e s).2 ++ (run tk (es.map Event.motion) (OnMouseMove tk e s).1).2) :=
      rfl
    have hd1 : (OnMouseMove tk e s).1.m_draggingPage = true := by rw [hstep]; exact hd
    have hv1 : (OnMouseMove tk e s).1.virtualSize = s.virtualSize := by rw [hstep]
    have hx1 : 0 ≤ (OnMouseMove tk e s).1.virtualSize.x := by rw [hv1]; exact hx
    have hy1 : 0 ≤ (OnMouseMove tk e s).1.virtualSize.y := by rw [hv1]; exact hy
    obtain ⟨ih1, ih2, ih3⟩ := ih (OnMouseMove tk e s).1 hd1 hx1 hy1
    have hsc : scrollCalls (OnMouseMove tk e s).2 =
        [⟨max 0 (min (candidate e s).x s.virtualSize.x),
          max 0 (min (candidate e s).y s.virtualSize.y)⟩] := by
      rw [hstep]
      simp [scrollCalls_append, scrollCalls_notifyGutter, scrollCalls]
    rw [hrun]
    simp only [scrollCalls_append, hsc]
    refine ⟨?_, ?_, ?_⟩
    · simp [ih1]
    · intro p hp
      rcases List.mem_append.mp hp with h | h
      · rw [List.mem_singleton] at h
        subst h
        exact ⟨(clamp_bounds _ _ hx).1, (clamp_bounds _ _ hx).2,
          (clamp_bounds _ _ hy).1, (clamp_bounds _ _ hy).2⟩
      · have := ih2 p h
        rw [hv1] at this
        exact this
    · intro hS _
      rcases es with _ | ⟨e2, es2⟩
      · show 0 ≤ (OnMouseMove tk e s).1.viewStart.x ∧
          (OnMouseMove tk e s).1.viewStart.x ≤ s.virtualSize.x ∧
          0 ≤ (OnMouseMove tk e s).1.viewStart.y ∧
          (OnMouseMove tk e s).1.viewStart.y ≤ s.virtualSize.y
        rw [hstep]
        simp only [hS]
        exact ⟨(clamp_bounds _ _ hx).1, (clamp_bounds _ _ hx).2,
          (clamp_bounds _ _ hy).1, (clamp_bounds _ _ hy).2⟩
      · have := ih3 hS (List.cons_ne_nil _ _)
        rw [hv1] at this
        exact this

/-- C5: for every sequence of pointer-move events during an active drag,
whatever the deltas and the current scroll origin, each move calls `Scroll`
exactly once and every position passed to `Scroll` lies within
`[0, virtualExtent]` on each axis (virtual extent `≥ 0`); when `Scroll` applies
the position it is given, so does the resulting view start. -/
theorem drag_scroll_clamped (tk : Toolkit) (s : Viewer) (moves : List MouseEvent)
    (hd : s.m_draggingPage = true)
    (hx : 0 ≤ s.virtualSize.x) (hy : 0 ≤ s.virtualSize.y) :
    (scrollCalls (run tk (moves.map Event.motion) s).2).length = moves.length ∧
    (∀ p ∈ scrollCalls (run tk (moves.map Event.motion) s).2,
      0 ≤ p.x ∧ p.x ≤ s.virtualSize.x ∧ 0 ≤ p.y ∧ p.y ≤ s.virtualSize.y) ∧
    ((∀ v q, tk.Scroll v q = q) → moves ≠ [] →
      0 ≤ (run tk (moves.map Event.motion) s).1.viewStart.x ∧
      (run tk (moves.map Event.motion) s).1.viewStart.x ≤ s.virtualSize.x ∧
      0 ≤ (run tk (moves.map Event.motion) s).1.viewStart.y ∧
      (run tk (moves.map Event.motion) s).1.viewStart.y ≤ s.virtualSize.y) :=
  run_moves_clamped tk moves s hd hx hy

/-- A drag far to the lower right and then far to the upper left: the two
`Scroll` calls are clamped to `(0, 0)` and `(300, 200)`. -/
theorem drag_scroll_clamped_witness :
    exampleDragging.m_draggingPage = true ∧
    scrollCalls (run specToolkit
      ([⟨true, ⟨5000, 7000⟩⟩, ⟨true, ⟨-9000, -9000⟩⟩].map Event.motion)
      exampleDragging).2 = [⟨0, 0⟩, ⟨300, 200⟩] ∧
    (∀ p ∈ scrollCalls (run specToolkit
      ([⟨true, ⟨5000, 7000⟩⟩, ⟨true, ⟨-9000, -9000⟩⟩].map Event.motion)
      exampleDragging).2,
      0 ≤ p.x ∧ p.x ≤ exampleDragging.virtualSize.x ∧
      0 ≤ p.y ∧ p.y ≤ exampleDragging.virtualSize.y) :=
  ⟨rfl, by decide,
    (drag_scroll_clamped specToolkit exampleDragging
      [⟨true, ⟨5000, 7000⟩⟩, ⟨true, ⟨-9000, -9000⟩⟩] rfl (by decide) (by decide)).2.1⟩

theorem run_append (tk : Toolkit) (a b : List Event) :
    ∀ s : Viewer, (run tk (a ++ b) s).1 = (run tk b (run tk a s).1).1 := by
  induction a with
  | nil => intro s; rfl
  | cons ev a ih => intro s; exact ih (step tk ev s).1

theorem OnMouseMove_noClamp (tk : Toolkit) (hS : ∀ v q, tk.Scroll v q = q)
    (e : MouseEvent) (s : Viewer) (hd : s.m_draggingPage = true)
    (hx0 : 0 ≤ (candidate e s).x) (hx1 : (candidate e s).x ≤ s.virtualSize.x)
    (hy0 : 0 ≤ (candidate e s).y) (hy1 : (candidate e s).y ≤ s.virtualSize.y) :
    (OnMouseMove tk e s).1 =
      { s with viewStart := candidate e s, m_draggingLastMousePos := e.position } := by
  rw [OnMouseMove_dragging tk e s hd]
  simp only [hS, min_eq_left hx1, min_eq_left hy1, max_eq_right hx0, max_eq_right hy0]

theorem run_moves_noClamp (tk : Toolkit) (hS : ∀ v q, tk.Scroll v q = q)
    (moves : List MouseEvent) :
    ∀ s : Viewer, s.m_draggingPage = true → noClamp tk moves s = true →
      (run tk (moves.map Event.motion) s).1.m_draggingPage = true ∧
      (run tk (moves.map Event.motion) s).1.viewStart.x +
          (run tk (moves.map Event.motion) s).1.m_draggingLastMousePos.x =
        s.viewStart.x + s.m_draggingLastMousePos.x ∧
      (run tk (moves.map Event.motion) s).1.viewStart.y +
          (run tk (moves.map Event.motion) s).1.m_draggingLastMousePos.y =
        s.viewStart.y + s.m_draggingLastMousePos.y := by
  induction moves with
  | nil =>
    intro s hd _
    exact ⟨hd, rfl, rfl⟩
  | cons e es ih =>
    intro s hd hnc
    simp only [noClamp, Bool.and_eq_true, decide_eq_true_eq] at hnc
    obtain ⟨⟨hx0, hx1, hy0, hy1⟩, hrest⟩ := hnc
    have hstep := OnMouseMove_noClamp tk hS e s hd hx0 hx1 hy0 hy1
    have hd1 : (OnMouseMove tk e s).1.m_draggingPage = true := by rw [hstep]; exact hd
    obtain ⟨i1, i2, i3⟩ := ih (OnMouseMove tk e s).1 hd1 hrest
    have hrun : (run tk ((e :: es).map Event.motion) s).1 =
        (run tk (es.map Event.motion) (OnMouseMove tk e s).1).1 := rfl
    rw [hrun]
    refine ⟨i1, ?_, ?_⟩
    · rw [i2, hstep]
      simp only [candidate]
      omega
    · rw [i3, hstep]
      simp only [candidate]
      omega

theorem run_moves_last (tk : Toolkit) (moves : List MouseEvent) (en : MouseEvent)
    (s : Viewer) (hd : (run tk (moves.map Event.motion) s).1.m_draggingPage = true) :
    (run tk ((moves ++ [en]).map Event.motion) s).1.m_draggingLastMousePos =
      en.position := by
  rw [List.map_append, run_append]
  show (OnMouseMove tk en (run tk (moves.map Event.motion) s).1).1.m_draggingLastMousePos = _
  rw [OnMouseMove_dragging tk en _ hd]

theorem noClamp_append_left (tk : Toolkit) (a b : List MouseEvent) :
    ∀ s : Viewer, noClamp tk (a ++ b) s = true → noClamp tk a s = true := by
  induction a with
  | nil => intro s _; rfl
  | cons e a ih =>
    intro s h
    simp only [List.cons_append, noClamp, Bool.and_eq_true] at h ⊢
    exact ⟨h.1, ih _ h.2⟩

/-- C10: during one drag that starts with a press at `p0` and scroll origin
`o0`, if `Scroll` applies the position it is given and no clamp engages on any
step, then after any sequence of moves ending at `pn` the scroll origin is
`o0 - (pn - p0)` and the recorded last pointer position is `pn`, whatever the
intermediate moves. -/
theorem drag_depends_on_last_position (tk : Toolkit) (hS : ∀ v q, tk.Scroll v q = q)
    (s0 : Viewer) (press : MouseEvent) (hpress : press.leftIsDown = true)
    (moves : List MouseEvent) (en : MouseEvent)
    (hnc : noClamp tk (moves ++ [en]) (OnMouseDown press s0).1 = true) :
    (run tk ((moves ++ [en]).map Event.motion) (OnMouseDown press s0).1).1.viewStart =
      ⟨s0.viewStart.x - (en.position.x - press.position.x),
        s0.viewStart.y - (en.position.y - press.position.y)⟩ ∧
    (run tk ((moves ++ [en]).map Event.motion)
      (OnMouseDown press s0).1).1.m_draggingLastMousePos = en.position := by
  have hdown : (OnMouseDown press s0).1.m_draggingPage = true ∧
      (OnMouseDown press s0).1.viewStart = s0.viewStart ∧
      (OnMouseDown press s0).1.m_draggingLastMousePos = press.position := by
    unfold OnMouseDown
    cases hc : s0.hasCapture <;> simp [hpress, hc]
  obtain ⟨hd, hv, hl⟩ := hdown
  obtain ⟨_, j2, j3⟩ := run_moves_noClamp tk hS (moves ++ [en]) _ hd hnc
  obtain ⟨k1, _, _⟩ := run_moves_noClamp tk hS moves _ hd
    (noClamp_append_left tk moves [en] _ hnc)
  have hlast := run_moves_last tk moves en _ k1
  refine ⟨?_, hlast⟩
  rw [hlast, hv, hl] at j2 j3
  have ex : (run tk ((moves ++ [en]).map Event.motion) (OnMouseDown press s0).1).1.viewStart.x =
      s0.viewStart.x - (en.position.x - press.position.x) := by omega
  have ey : (run tk ((moves ++ [en]).map Event.motion) (OnMouseDown press s0).1).1.viewStart.y =
      s0.viewStart.y - (en.position.y - press.position.y) := by omega
  rw [← ex, ← ey]

/-- A press at `(10, 10)` with origin `(50, 60)`, then moves to `(0, 0)`,
`(40, 30)` and `(20, 5)`: the origin ends at `(40, 65)`. -/
theorem drag_depends_on_last_position_witness :
    noClamp specToolkit (exampleMoves ++ [exampleLastMove])
      (OnMouseDown ⟨true, ⟨10, 10⟩⟩ exampleScrolled).1 = true ∧
    (run specToolkit ((exampleMoves ++ [exampleLastMove]).map Event.motion)
      (OnMouseDown ⟨true, ⟨10, 10⟩⟩ exampleScrolled).1).1.viewStart = ⟨40, 65⟩ :=
  ⟨by decide,
    (drag_depends_on_last_position specToolkit (fun _ _ => rfl) exampleScrolled
      ⟨true, ⟨10, 10⟩⟩ rfl exampleMoves exampleLastMove (by decide)).1⟩

/-! ## Proofs: gutter notification -/

theorem notifications_append (a b : List Effect) :
    notifications (a ++ b) = notifications a ++ notifications b := by
  induction a with
  | nil => rfl
  | cons e a ih => cases e <;> simp [notifications, ih]

theorem notifications_notifyGutter (s : Viewer) :
    notifications (notifyGutter s) = s.m_gutter.toList := by
  unfold notifyGutter
  cases s.m_gutter <;> rfl

theorem UpdateBitmap_notifications (tk : Toolkit) (s : Viewer) :
    notifications (UpdateBitmap tk s).2 = s.m_gutter.toList ∧
    (UpdateBitmap tk s).1.m_gutter = s.m_gutter ∧
    (UpdateBitmap tk s).1.m_draggingPage = s.m_draggingPage := by
  refine ⟨?_, rfl, rfl⟩
  unfold UpdateBitmap
  simp only [notifications_append, notifications_notifyGutter]
  rfl

theorem OnMouseMove_notifications (tk : Toolkit) (e : MouseEvent) (s : Viewer)
    (h : s.m_draggingPage = true ∨ s.m_gutter = none) :
    notifications (OnMouseMove tk e s).2 = s.m_gutter.toList ∧
    (OnMouseMove tk e s).1.m_gutter = s.m_gutter ∧
    (OnMouseMove tk e s).1.m_draggingPage = s.m_draggingPage := by
  cases hd : s.m_draggingPage with
  | true =>
    rw [OnMouseMove_dragging tk e s hd]
    refine ⟨?_, rfl, hd⟩
    simp only [notifications_append, notifications_notifyGutter]
    rfl
  | false =>
    have hg : s.m_gutter = none := by
      rcases h with h | h
      · rw [hd] at h; exact absurd h (by decide)
      · exact h
    have h1 : OnMouseMove tk e s = (s, [Effect.skip]) := by
      unfold OnMouseMove
      simp [hd]
    rw [h1, hg]
    exact ⟨rfl, rfl, hd⟩

theorem applyOp_notifications (tk : Toolkit) (op : Op) (s : Viewer) (hwf : op.wellFormed)
    (hdrag : op.isDragMove = true → s.m_draggingPage = true ∨ s.m_gutter = none) :
    ∃ r, applyOp tk op s = some r ∧ notifications r.2 = s.m_gutter.toList ∧
      r.1.m_gutter = s.m_gutter ∧ r.1.m_draggingPage = s.m_draggingPage := by
  cases op with
  | setImage img => exact ⟨_, rfl, UpdateBitmap_notifications tk _⟩
  | setSurface surface =>
    refine ⟨SetImage tk (Image.mk surface.width surface.height
      (firstPixels surface.data surface.stride surface.width
        (surface.height * surface.width))) s, ?_, UpdateBitmap_notifications tk _⟩
    show SetSurface tk surface s = _
    rw [SetSurface, surfaceToImage_eq surface hwf.1 hwf.2]
  | setZoom factor => exact ⟨_, rfl, UpdateBitmap_notifications tk _⟩
  | setBestFitZoom => exact ⟨_, rfl, UpdateBitmap_notifications tk _⟩
  | scrolling viewStart =>
    refine ⟨_, rfl, ?_, rfl, rfl⟩
    show notifications (notifyGutter _ ++ [Effect.skip]) = _
    rw [notifications_append, notifications_notifyGutter]
    simp [notifications]
  | sizeChanged size =>
    refine ⟨_, rfl, ?_, rfl, rfl⟩
    show notifications (notifyGutter _ ++ [Effect.skip]) = _
    rw [notifications_append, notifications_notifyGutter]
    simp [notifications]
  | dragMove e => exact ⟨_, rfl, OnMouseMove_notifications tk e s (hdrag rfl)⟩

theorem runOps_notifications (tk : Toolkit) (ops : List Op) :
    ∀ s : Viewer, (∀ op ∈ ops, op.wellFormed) →
      (s.m_draggingPage = true ∨ s.m_gutter = none ∨ ∀ op ∈ ops, op.isDragMove = false) →
      ∃ r, runOps tk ops s = some r ∧
        (∀ g, s.m_gutter = some g → notifications r.2 = List.replicate ops.length g) ∧
        (s.m_gutter = none → notifications r.2 = []) := by
  induction ops with
  | nil => intro s _ _; exact ⟨_, rfl, fun _ _ => rfl, fun _ => rfl⟩
  | cons op ops ih =>
    intro s hwf hdrag
    have hop : op.isDragMove = true → s.m_draggingPage = true ∨ s.m_gutter = none := by
      intro hm
      rcases hdrag with h | h | h
      · exact Or.inl h
      · exact Or.inr h
      · rw [h op (List.mem_cons_self _ _)] at hm
        exact absurd hm (by decide)
    obtain ⟨r1, e1, n1, g1, d1⟩ :=
      applyOp_notifications tk op s (hwf op (List.mem_cons_self _ _)) hop
    have hrest : r1.1.m_draggingPage = true ∨ r1.1.m_gutter = none ∨
        ∀ o ∈ ops, o.isDragMove = false := by
      rcases hdrag with h | h | h
      · exact Or.inl (d1.trans h)
      · exact Or.inr (Or.inl (g1.trans h))
      · exact Or.inr (Or.inr fun o ho => h o (List.mem_cons_of_mem _ ho))
    obtain ⟨r2, e2, n2, n3⟩ :=
      ih r1.1 (fun o ho => hwf o (List.mem_cons_of_mem _ ho)) hrest
    refine ⟨(r2.1, r1.2 ++ r2.2), ?_, ?_, ?_⟩
    · rw [runOps, e1]
      simp only [e2]
    · intro g hg
      show notifications (r1.2 ++ r2.2) = _
      rw [notifications_append, n1, n2 g (g1.trans hg), hg]
      rfl
    · intro hg
      show notifications (r1.2 ++ r2.2) = _
      rw [notifications_append, n1, n3 (g1.trans hg), hg]
      rfl

theorem roundHalfEven_bounds (y : ℚ) :
    ⌊y⌋ ≤ roundHalfEven y ∧ roundHalfEven y ≤ ⌊y⌋ + 1 := by
  unfold roundHalfEven
  split_ifs <;> constructor <;> omega

theorem roundHalfEven_intCast (n : Int) : roundHalfEven (n : ℚ) = n := by
  unfold roundHalfEven
  simp

theorem roundHalfEven_mono {a b : ℚ} (h : a ≤ b) : roundHalfEven a ≤ roundHalfEven b := by
  rcases lt_or_eq_of_le (Int.floor_mono h) with hlt | heq
  · have h1 := (roundHalfEven_bounds a).2
    have h2 := (roundHalfEven_bounds b).1
    omega
  · unfold roundHalfEven
    rw [← heq]
    have hab : a - ⌊a⌋ ≤ b - ⌊a⌋ := by linarith
    split_ifs <;> first | omega | (exfalso; linarith)

theorem roundHalfEven_error (y : ℚ) : |(roundHalfEven y : ℚ) - y| ≤ 1 / 2 := by
  have h1 := Int.floor_le y
  have h2 := Int.lt_floor_add_one y
  unfold roundHalfEven
  rw [abs_le]
  split_ifs <;> push_cast <;> constructor <;> linarith

theorem FloatFormat.ulp_pos (fmt : FloatFormat) (x : ℚ) : 0 < fmt.ulp x := by
  unfold FloatFormat.ulp
  positivity

theorem FloatFormat.emin_le_exponent (fmt : FloatFormat) (x : ℚ) :
    fmt.emin ≤ fmt.exponent x := le_max_right _ _

theorem FloatFormat.lt_zpow_exponent (fmt : FloatFormat) (x : ℚ) :
    |x| < (2 : ℚ) ^ (fmt.exponent x + 1) := by
  have h1 : |x| < ((2 : ℕ) : ℚ) ^ (Int.log 2 |x| + 1) :=
    Int.lt_zpow_succ_log_self (by norm_num) _
  have h2 : ((2 : ℕ) : ℚ) ^ (Int.log 2 |x| + 1) ≤ (2 : ℚ) ^ (fmt.exponent x + 1) := by
    push_cast
    apply zpow_le_zpow_right₀ (by norm_num)
    have := le_max_left (Int.log 2 |x|) fmt.emin
    unfold FloatFormat.exponent
    omega
  exact lt_of_lt_of_le h1 h2

theorem FloatFormat.zpow_exponent_le (fmt : FloatFormat) (x : ℚ) (hx : x ≠ 0)
    (he : fmt.emin < fmt.exponent x) : (2 : ℚ) ^ fmt.exponent x ≤ |x| := by
  have hlog : fmt.exponent x = Int.log 2 |x| := by
    unfold FloatFormat.exponent at he ⊢
    rcases le_total (Int.log 2 |x|) fmt.emin with h | h
    · rw [max_eq_right h] at he; omega
    · exact max_eq_left h
  rw [hlog]
  have := Int.zpow_log_le_self (b := 2) (r := |x|) (by norm_num) (abs_pos.mpr hx)
  exact_mod_cast this

theorem FloatFormat.exponent_mono (fmt : FloatFormat) {x y : ℚ} (hx : 0 < x)
    (hxy : x ≤ y) : fmt.exponent x ≤ fmt.exponent y := by
  unfold FloatFormat.exponent
  apply max_le_max _ le_rfl
  rw [abs_of_pos hx, abs_of_pos (lt_of_lt_of_le hx hxy)]
  exact Int.log_mono_right hx hxy

theorem FloatFormat.zpow_div_ulp (fmt : FloatFormat) (x : ℚ) (k : Nat) (e : Int)
    (h : e = fmt.exponent x - ((fmt.prec : Int) - 1) + (k : Int)) :
    (2 : ℚ) ^ e = (((2 ^ k : Nat) : Int) : ℚ) * fmt.ulp x := by
  unfold FloatFormat.ulp
  rw [h, zpow_add₀ (by norm_num), zpow_natCast]
  push_cast
  ring

theorem FloatFormat.roundQ_le_zpow (fmt : FloatFormat) (x : ℚ)
    (hx : 0 ≤ x) : fmt.roundQ x ≤ (2 : ℚ) ^ (fmt.exponent x + 1) := by
  have hu := fmt.ulp_pos x
  have hz := fmt.zpow_div_ulp x fmt.prec (fmt.exponent x + 1) (by omega)
  have hlt := fmt.lt_zpow_exponent x
  rw [abs_of_nonneg hx, hz] at hlt
  have hq : x / fmt.ulp x ≤ (((2 ^ fmt.prec : Nat) : Int) : ℚ) := by
    rw [div_le_iff₀ hu]; exact hlt.le
  have hr := roundHalfEven_mono hq
  rw [roundHalfEven_intCast] at hr
  rw [hz]
  unfold FloatFormat.roundQ
  exact mul_le_mul_of_nonneg_right (by exact_mod_cast hr) hu.le

theorem FloatFormat.zpow_le_roundQ (fmt : FloatFormat) (hp : 1 ≤ fmt.prec) (x : ℚ)
    (hx : 0 < x) (he : fmt.emin < fmt.exponent x) :
    (2 : ℚ) ^ fmt.exponent x ≤ fmt.roundQ x := by
  have hu := fmt.ulp_pos x
  have hz := fmt.zpow_div_ulp x (fmt.prec - 1) (fmt.exponent x) (by omega)
  have hle := fmt.zpow_exponent_le x hx.ne' he
  rw [abs_of_pos hx, hz] at hle
  have hq : (((2 ^ (fmt.prec - 1) : Nat) : Int) : ℚ) ≤ x / fmt.ulp x := by
    rw [le_div_iff₀ hu]; exact hle
  have hr := roundHalfEven_mono hq
  rw [roundHalfEven_intCast] at hr
  rw [hz]
  unfold FloatFormat.roundQ
  exact mul_le_mul_of_nonneg_right (by exact_mod_cast hr) hu.le

theorem FloatFormat.roundQ_zero (fmt : FloatFormat) : fmt.roundQ 0 = 0 := by
  unfold FloatFormat.roundQ
  rw [zero_div]
  have : roundHalfEven 0 = 0 := by
    have := roundHalfEven_intCast 0
    simpa using this
  rw [this]
  simp

theorem FloatFormat.roundQ_nonneg (fmt : FloatFormat) (x : ℚ) (hx : 0 ≤ x) :
    0 ≤ fmt.roundQ x := by
  have hu := fmt.ulp_pos x
  have hq : ((0 : Int) : ℚ) ≤ x / fmt.ulp x := by
    rw [Int.cast_zero]; exact div_nonneg hx hu.le
  have hr := roundHalfEven_mono hq
  rw [roundHalfEven_intCast] at hr
  unfold FloatFormat.roundQ
  exact mul_nonneg (by exact_mod_cast hr) hu.le

theorem FloatFormat.roundQ_mono (fmt : FloatFormat) (hp : 1 ≤ fmt.prec) {x y : ℚ}
    (hx : 0 ≤ x) (hxy : x ≤ y) : fmt.roundQ x ≤ fmt.roundQ y := by
  rcases eq_or_lt_of_le hx with h0 | h0
  · rw [← h0, fmt.roundQ_zero]
    exact fmt.roundQ_nonneg y (le_trans hx hxy)
  · have hy : 0 < y := lt_of_lt_of_le h0 hxy
    rcases eq_or_lt_of_le (fmt.exponent_mono h0 hxy) with he | he
    · have hu : fmt.ulp x = fmt.ulp y := by unfold FloatFormat.ulp; rw [he]
      unfold FloatFormat.roundQ
      rw [hu]
      have hq : x / fmt.ulp y ≤ y / fmt.ulp y :=
        div_le_div_of_nonneg_right hxy (fmt.ulp_pos y).le
      exact mul_le_mul_of_nonneg_right (by exact_mod_cast roundHalfEven_mono hq)
        (fmt.ulp_pos y).le
    · have h1 := fmt.roundQ_le_zpow x hx
      have h2 := fmt.zpow_le_roundQ hp y hy
        (lt_of_le_of_lt (fmt.emin_le_exponent x) he)
      have h3 : (2 : ℚ) ^ (fmt.exponent x + 1) ≤ (2 : ℚ) ^ fmt.exponent y :=
        zpow_le_zpow_right₀ (by norm_num) (by omega)
      linarith

theorem FloatFormat.roundQ_of_int_mul_ulp (fmt : FloatFormat) (x : ℚ) (n : Int)
    (h : x = (n : ℚ) * fmt.ulp x) : fmt.roundQ x = x := by
  have hu := fmt.ulp_pos x
  have hq : x / fmt.ulp x = (n : ℚ) := by
    rw [div_eq_iff hu.ne']; exact h
  unfold FloatFormat.roundQ
  rw [hq, roundHalfEven_intCast]
  exact h.symm

theorem FloatFormat.roundQ_dyadic_lt (fmt : FloatFormat) (m : Nat)
    (k : Int) (hm : m < 2 ^ fmt.prec) (hk : fmt.emin - ((fmt.prec : Int) - 1) ≤ k) :
    fmt.roundQ ((m : ℚ) * (2 : ℚ) ^ k) = (m : ℚ) * (2 : ℚ) ^ k := by
  rcases Nat.eq_zero_or_pos m with h0 | h0
  · rw [h0]; simp [fmt.roundQ_zero]
  · have hpos : (0 : ℚ) < (m : ℚ) * (2 : ℚ) ^ k := by positivity
    have hek : fmt.exponent ((m : ℚ) * (2 : ℚ) ^ k) - ((fmt.prec : Int) - 1) ≤ k := by
      rcases eq_or_lt_of_le (fmt.emin_le_exponent ((m : ℚ) * (2 : ℚ) ^ k)) with he | he
      · rw [← he]; exact hk
      · have h1 := fmt.zpow_exponent_le _ hpos.ne' he
        rw [abs_of_pos hpos] at h1
        have h2 : (m : ℚ) * (2 : ℚ) ^ k < (2 : ℚ) ^ ((fmt.prec : Int) + k) := by
          rw [zpow_add₀ (by norm_num), zpow_natCast]
          have : (m : ℚ) < (2 : ℚ) ^ fmt.prec := by exact_mod_cast hm
          exact mul_lt_mul_of_pos_right this (by positivity)
        have h3 := lt_of_le_of_lt h1 h2
        rw [zpow_lt_zpow_iff_right₀ (by norm_num)] at h3
        omega
    obtain ⟨d, hd⟩ := Int.eq_ofNat_of_zero_le (sub_nonneg.mpr hek)
    have hz := fmt.zpow_div_ulp ((m : ℚ) * (2 : ℚ) ^ k) d k (by omega)
    apply fmt.roundQ_of_int_mul_ulp _ ((m : Int) * ((2 ^ d : Nat) : Int))
    conv_lhs => rw [hz]
    push_cast
    ring

theorem FloatFormat.roundQ_dyadic (fmt : FloatFormat) (hp : 1 ≤ fmt.prec) (m : Nat)
    (k : Int) (hm : m ≤ 2 ^ fmt.prec) (hk : fmt.emin - ((fmt.prec : Int) - 1) ≤ k) :
    fmt.roundQ ((m : ℚ) * (2 : ℚ) ^ k) = (m : ℚ) * (2 : ℚ) ^ k := by
  rcases lt_or_eq_of_le hm with h | h
  · exact fmt.roundQ_dyadic_lt m k h hk
  · have hlt : 2 ^ (fmt.prec - 1) < 2 ^ fmt.prec :=
      Nat.pow_lt_pow_right (by norm_num) (by omega)
    have := fmt.roundQ_dyadic_lt (2 ^ (fmt.prec - 1)) (k + 1) hlt (by omega)
    have e : (m : ℚ) * (2 : ℚ) ^ k =
        ((2 ^ (fmt.prec - 1) : Nat) : ℚ) * (2 : ℚ) ^ (k + 1) := by
      rw [h, zpow_add₀ (by norm_num)]
      have hpp : fmt.prec = (fmt.prec - 1) + 1 := by omega
      conv_lhs => rw [hpp]
      push_cast
      ring
    rw [e]
    exact this

theorem FloatFormat.roundQ_natCast (fmt : FloatFormat) (hp : 1 ≤ fmt.prec)
    (he : fmt.emin - ((fmt.prec : Int) - 1) ≤ 0) (n : Nat) (hn : n ≤ 2 ^ fmt.prec) :
    fmt.roundQ (n : ℚ) = (n : ℚ) := by
  have := fmt.roundQ_dyadic hp n 0 hn he
  simpa using this

theorem FloatFormat.roundQ_half (fmt : FloatFormat) (hp : 1 ≤ fmt.prec)
    (he : fmt.emin - ((fmt.prec : Int) - 1) ≤ -1) (n : Nat) (hn : n ≤ 2 ^ fmt.prec) :
    fmt.roundQ ((n : ℚ) / 2) = (n : ℚ) / 2 := by
  have := fmt.roundQ_dyadic hp n (-1) hn he
  have e : (n : ℚ) * (2 : ℚ) ^ (-1 : Int) = (n : ℚ) / 2 := by
    rw [zpow_neg_one]; ring
  rw [e] at this
  exact this

theorem FloatFormat.roundQ_error (fmt : FloatFormat) (x : ℚ)
    (hx : (2 : ℚ) ^ fmt.emin ≤ x) :
    |fmt.roundQ x - x| ≤ x / 2 ^ fmt.prec := by
  have hpos : 0 < x := lt_of_lt_of_le (by positivity) hx
  have hu := fmt.ulp_pos x
  have hle : (2 : ℚ) ^ fmt.exponent x ≤ x := by
    rcases eq_or_lt_of_le (fmt.emin_le_exponent x) with he | he
    · rw [← he]; exact hx
    · have := fmt.zpow_exponent_le x hpos.ne' he
      rwa [abs_of_pos hpos] at this
  have h1 : fmt.roundQ x - x = ((roundHalfEven (x / fmt.ulp x) : ℚ) - x / fmt.ulp x) *
      fmt.ulp x := by
    unfold FloatFormat.roundQ
    field_simp
  have h2 : fmt.ulp x / 2 = (2 : ℚ) ^ fmt.exponent x / 2 ^ fmt.prec := by
    unfold FloatFormat.ulp
    rw [zpow_sub₀ (by norm_num), zpow_sub₀ (by norm_num), zpow_natCast, zpow_one]
    field_simp
    ring
  rw [h1, abs_mul, abs_of_pos hu]
  calc |(roundHalfEven (x / fmt.ulp x) : ℚ) - x / fmt.ulp x| * fmt.ulp x
      ≤ 1 / 2 * fmt.ulp x :=
        mul_le_mul_of_nonneg_right (roundHalfEven_error _) hu.le
    _ = (2 : ℚ) ^ fmt.exponent x / 2 ^ fmt.prec := by rw [← h2]; ring
    _ ≤ x / 2 ^ fmt.prec := div_le_div_of_nonneg_right hle (by positivity)

theorem CFloat.format_ok (T : CFloat) :
    24 ≤ T.format.prec ∧ T.format.emin ≤ -126 ∧ 127 ≤ T.format.emax := by
  cases T <;> decide

theorem FloatFormat.round_eq_finite (fmt : FloatFormat) (x : ℚ)
    (h : |fmt.roundQ x| < (2 : ℚ) ^ (fmt.emax + 1)) :
    fmt.round x = FloatVal.finite (fmt.roundQ x) := by
  unfold FloatFormat.round
  rw [if_pos h]

theorem FloatFormat.lt_zpow_emax (fmt : FloatFormat) (he : 127 ≤ fmt.emax) (x : ℚ)
    (h0 : 0 ≤ x) (hx : x < 2147483648) : |x| < (2 : ℚ) ^ (fmt.emax + 1) := by
  rw [abs_of_nonneg h0]
  have h1 : (2 : ℚ) ^ (31 : Int) ≤ (2 : ℚ) ^ (fmt.emax + 1) :=
    zpow_le_zpow_right₀ (by norm_num) (by omega)
  have h2 : (2 : ℚ) ^ (31 : Int) = 2147483648 := by norm_num
  linarith

theorem FloatFormat.roundQ_natCast_small (fmt : FloatFormat) (hp : 24 ≤ fmt.prec)
    (hm : fmt.emin ≤ -126) (n : Nat) (hn : n ≤ 2 ^ 24) : fmt.roundQ (n : ℚ) = (n : ℚ) := by
  apply fmt.roundQ_natCast (by omega) (by omega) n
  exact le_trans hn (Nat.pow_le_pow_right (by norm_num) hp)

theorem FloatFormat.roundQ_half_small (fmt : FloatFormat) (hp : 24 ≤ fmt.prec)
    (hm : fmt.emin ≤ -126) (n : Nat) (hn : n ≤ 2 ^ 24) :
    fmt.roundQ ((n : ℚ) / 2) = (n : ℚ) / 2 := by
  apply fmt.roundQ_half (by omega) (by omega) n
  exact le_trans hn (Nat.pow_le_pow_right (by norm_num) hp)

theorem FloatVal.ofInt_natCast (fmt : FloatFormat) (hp : 24 ≤ fmt.prec)
    (hm : fmt.emin ≤ -126) (he : 127 ≤ fmt.emax) (n : Nat) (hn : n ≤ 2 ^ 24) :
    FloatVal.ofInt fmt (n : Int) = FloatVal.finite (n : ℚ) := by
  have hr := fmt.roundQ_natCast_small hp hm n hn
  have hq : (((n : Int)) : ℚ) = (n : ℚ) := by push_cast; rfl
  unfold FloatVal.ofInt
  rw [hq, fmt.round_eq_finite, hr]
  rw [hr]
  apply fmt.lt_zpow_emax he _ (Nat.cast_nonneg n)
  have : (n : ℚ) ≤ 16777216 := by
    have h := hn
    norm_num at h
    exact_mod_cast h
  linarith

/-- The product `n * z` of an exactly converted `int` and a finite factor,
converted back to `int`, when the exact product lies between two representable
numbers `lo` and `hi`. -/
theorem FloatVal.mul_toInt (fmt : FloatFormat) (hp : 24 ≤ fmt.prec) (hm : fmt.emin ≤ -126)
    (he : 127 ≤ fmt.emax) (n : Nat) (hn : n ≤ 2 ^ 24) (z lo hi : ℚ)
    (hlo : fmt.roundQ lo = lo) (hhi : fmt.roundQ hi = hi) (h0 : 0 ≤ lo)
    (h1 : lo ≤ (n : ℚ) * z) (h2 : (n : ℚ) * z ≤ hi) (h3 : hi < 2147483648) :
    (FloatVal.mul fmt (FloatVal.ofInt fmt (n : Int)) (FloatVal.finite z)).toInt =
        some ⌊fmt.roundQ ((n : ℚ) * z)⌋ ∧
      lo ≤ fmt.roundQ ((n : ℚ) * z) ∧ fmt.roundQ ((n : ℚ) * z) ≤ hi := by
  have hp1 : 1 ≤ fmt.prec := by omega
  have hL : lo ≤ fmt.roundQ ((n : ℚ) * z) := by
    have := fmt.roundQ_mono hp1 h0 h1
    rwa [hlo] at this
  have hH : fmt.roundQ ((n : ℚ) * z) ≤ hi := by
    have := fmt.roundQ_mono hp1 (le_trans h0 h1) h2
    rwa [hhi] at this
  have hP0 : 0 ≤ fmt.roundQ ((n : ℚ) * z) := le_trans h0 hL
  refine ⟨?_, hL, hH⟩
  rw [FloatVal.ofInt_natCast fmt hp hm he n hn]
  show (fmt.round ((n : ℚ) * z)).toInt = _
  rw [fmt.round_eq_finite _ (fmt.lt_zpow_emax he _ hP0 (lt_of_le_of_lt hH h3))]
  have ht := truncToInt_of_nonneg _ hP0
  have hf0 : (0 : Int) ≤ ⌊fmt.roundQ ((n : ℚ) * z)⌋ := Int.floor_nonneg.mpr hP0
  have hf1 : ⌊fmt.roundQ ((n : ℚ) * z)⌋ < 2147483648 := by
    rw [Int.floor_lt]
    push_cast
    exact lt_of_le_of_lt hH h3
  simp only [FloatVal.toInt, ht]
  rw [if_pos ⟨by omega, by omega⟩]

theorem Machine.scaledBitmap_dims (T : CFloat) (img : Image) (zoom : FloatVal) (d1 d2 : Int)
    (h1 : (FloatVal.mul T.format (FloatVal.ofInt T.format (img.width : Int)) zoom).toInt =
      some d1)
    (h2 : (FloatVal.mul T.format (FloatVal.ofInt T.format (img.height : Int)) zoom).toInt =
      some d2) :
    ∃ bmp, Machine.scaledBitmap T img zoom = some bmp ∧ bmp.width = d1 ∧ bmp.height = d2 := by
  unfold Machine.scaledBitmap
  rw [h1, h2]
  simp only
  split
  · exact ⟨_, rfl, rfl, rfl⟩
  · next h =>
    have h' := not_or.mp h
    simp only [ne_eq, not_not] at h'
    exact ⟨_, rfl, h'.1.symm, h'.2.symm⟩

theorem Machine.UpdateBitmap_of_scaledBitmap (T : CFloat) (fitInside : Machine.Viewer → Point)
    (s : Machine.Viewer) (bmp : Bitmap)
    (h : Machine.scaledBitmap T s.m_orig_image s.m_zoom_factor = some bmp) :
    ∃ r, Machine.UpdateBitmap T fitInside s = some r ∧ r.1.m_content = bmp ∧
      r.1.m_zoom_factor = s.m_zoom_factor := by
  unfold Machine.UpdateBitmap
  rw [h]
  exact ⟨_, rfl, rfl, rfl⟩

/-- One dimension of the target size: for `n ≤ 2^24` and a factor `f ≥ 0` with
`n * f ≤ 2^24`, `int(n * f)` is defined, is the floor of the rounded product
and lies between the floor and the ceiling of the exact product. -/
theorem Machine.target_dim (T : CFloat) (n : Nat) (f : ℚ) (hn : n ≤ 2 ^ 24) (hf : 0 ≤ f)
    (hnf : (n : ℚ) * f ≤ 2 ^ 24) :
    (FloatVal.mul T.format (FloatVal.ofInt T.format (n : Int)) (FloatVal.finite f)).toInt =
        some ⌊T.format.roundQ ((n : ℚ) * f)⌋ ∧
      ⌊(n : ℚ) * f⌋ ≤ ⌊T.format.roundQ ((n : ℚ) * f)⌋ ∧
      ⌊T.format.roundQ ((n : ℚ) * f)⌋ ≤ ⌈(n : ℚ) * f⌉ := by
  obtain ⟨hp, hm, he⟩ := T.format_ok
  have hx0 : 0 ≤ (n : ℚ) * f := mul_nonneg (Nat.cast_nonneg n) hf
  have hfl0 : 0 ≤ ⌊(n : ℚ) * f⌋ := Int.floor_nonneg.mpr hx0
  have hce0 : 0 ≤ ⌈(n : ℚ) * f⌉ := Int.ceil_nonneg hx0
  obtain ⟨a, ha⟩ := Int.eq_ofNat_of_zero_le hfl0
  obtain ⟨b, hb⟩ := Int.eq_ofNat_of_zero_le hce0
  have hbound : ⌈(n : ℚ) * f⌉ ≤ 2 ^ 24 := by
    rw [Int.ceil_le]
    push_cast
    exact hnf
  have hb24 : b ≤ 2 ^ 24 := by
    have : (b : Int) ≤ 2 ^ 24 := by rw [← hb]; exact hbound
    exact_mod_cast this
  have ha24 : a ≤ 2 ^ 24 := by
    have h1 : ⌊(n : ℚ) * f⌋ ≤ ⌈(n : ℚ) * f⌉ := Int.floor_le_ceil _
    have : (a : Int) ≤ 2 ^ 24 := by rw [← ha]; exact le_trans h1 hbound
    exact_mod_cast this
  have hlo : (a : ℚ) ≤ (n : ℚ) * f := by
    have := Int.floor_le ((n : ℚ) * f)
    rw [ha] at this
    exact_mod_cast this
  have hhi : (n : ℚ) * f ≤ (b : ℚ) := by
    have := Int.le_ceil ((n : ℚ) * f)
    rw [hb] at this
    exact_mod_cast this
  have hb31 : (b : ℚ) < 2147483648 := by
    have : (b : ℚ) ≤ 16777216 := by
      have h := hb24
      norm_num at h
      exact_mod_cast h
    linarith
  obtain ⟨e1, e2, e3⟩ := FloatVal.mul_toInt T.format hp hm he n hn f (a : ℚ) (b : ℚ)
    (T.format.roundQ_natCast_small hp hm a ha24) (T.format.roundQ_natCast_small hp hm b hb24)
    (Nat.cast_nonneg a) hlo hhi hb31
  refine ⟨e1, ?_, ?_⟩
  · rw [ha]
    exact Int.le_floor.mpr (by exact_mod_cast e2)
  · rw [hb]
    have h1 := Int.floor_le (T.format.roundQ ((n : ℚ) * f))
    have h2 : ((⌊T.format.roundQ ((n : ℚ) * f)⌋ : Int) : ℚ) ≤ ((b : Int) : ℚ) := by
      push_cast
      exact le_trans h1 e3
    exact_mod_cast h2

theorem Machine.UpdateBitmap_dims (T : CFloat) (fitInside : Machine.Viewer → Point)
    (s : Machine.Viewer) (f : ℚ) (hz : s.m_zoom_factor = FloatVal.finite f) (hf : 0 ≤ f)
    (hw : s.m_orig_image.width ≤ 2 ^ 24) (hh : s.m_orig_image.height ≤ 2 ^ 24)
    (hwf : (s.m_orig_image.width : ℚ) * f ≤ 2 ^ 24)
    (hhf : (s.m_orig_image.height : ℚ) * f ≤ 2 ^ 24) :
    ∃ r, Machine.UpdateBitmap T fitInside s = some r ∧
      r.1.m_zoom_factor = FloatVal.finite f ∧
      r.1.m_content.width = ⌊T.format.roundQ ((s.m_orig_image.width : ℚ) * f)⌋ ∧
      r.1.m_content.height = ⌊T.format.roundQ ((s.m_orig_image.height : ℚ) * f)⌋ ∧
      ⌊(s.m_orig_image.width : ℚ) * f⌋ ≤ r.1.m_content.width ∧
      r.1.m_content.width ≤ ⌈(s.m_orig_image.width : ℚ) * f⌉ ∧
      ⌊(s.m_orig_image.height : ℚ) * f⌋ ≤ r.1.m_content.height ∧
      r.1.m_content.height ≤ ⌈(s.m_orig_image.height : ℚ) * f⌉ := by
  obtain ⟨w1, w2, w3⟩ := Machine.target_dim T s.m_orig_image.width f hw hf hwf
  obtain ⟨h1, h2, h3⟩ := Machine.target_dim T s.m_orig_image.height f hh hf hhf
  rw [← hz] at w1 h1
  obtain ⟨bmp, hb, bw, bh⟩ := Machine.scaledBitmap_dims T _ _ _ _ w1 h1
  obtain ⟨r, hr, hc, hzf⟩ := Machine.UpdateBitmap_of_scaledBitmap T fitInside s bmp hb
  refine ⟨r, hr, hzf.trans hz, ?_, ?_, ?_, ?_, ?_, ?_⟩ <;> rw [hc]
  · exact bw
  · exact bh
  · rw [bw]; exact w2
  · rw [bw]; exact w3
  · rw [bh]; exact h2
  · rw [bh]; exact h3

theorem FloatFormat.exponent_eq (fmt : FloatFormat) (x : ℚ) (e : Int) (hmin : fmt.emin ≤ e)
    (h1 : (2 : ℚ) ^ e ≤ |x|) (h2 : |x| < (2 : ℚ) ^ (e + 1)) : fmt.exponent x = e := by
  have hpos : 0 < |x| := lt_of_lt_of_le (by positivity) h1
  have hle : e ≤ Int.log 2 |x| := by
    rw [← Int.zpow_le_iff_le_log (by norm_num) hpos]
    exact_mod_cast h1
  have hlt : Int.log 2 |x| < e + 1 := by
    rw [← Int.lt_zpow_iff_log_lt (by norm_num) hpos]
    exact_mod_cast h2
  unfold FloatFormat.exponent
  rw [max_eq_left (by omega)]
  omega

theorem roundHalfEven_eq (y : ℚ) (n : Int) (h : |y - (n : ℚ)| < 1 / 2) :
    roundHalfEven y = n := by
  rw [abs_lt] at h
  have hlo : (((n - 1 : Int)) : ℚ) ≤ y := by push_cast; linarith
  have hhi : y < (((n + 1 : Int)) : ℚ) := by push_cast; linarith
  have h1 : n - 1 ≤ ⌊y⌋ := Int.le_floor.mpr hlo
  have h2 : ⌊y⌋ < n + 1 := Int.floor_lt.mpr hhi
  have h3 := Int.floor_le y
  have h4 := Int.lt_floor_add_one y
  rcases (by omega : ⌊y⌋ = n - 1 ∨ ⌊y⌋ = n) with hf | hf
  · have hf' : ((⌊y⌋ : Int) : ℚ) = (n : ℚ) - 1 := by rw [hf]; push_cast; ring
    unfold roundHalfEven
    rw [if_neg (by rw [hf']; linarith), if_pos (by rw [hf']; linarith), hf]
    omega
  · unfold roundHalfEven
    rw [if_pos (by rw [hf]; linarith), hf]

theorem FloatFormat.roundQ_eq (fmt : FloatFormat) (x : ℚ) (e n : Int) (u : ℚ)
    (hmin : fmt.emin ≤ e) (h1 : (2 : ℚ) ^ e ≤ |x|) (h2 : |x| < (2 : ℚ) ^ (e + 1))
    (hu : u = (2 : ℚ) ^ (e - ((fmt.prec : Int) - 1))) (hn : |x / u - (n : ℚ)| < 1 / 2) :
    fmt.roundQ x = (n : ℚ) * u := by
  have he := fmt.exponent_eq x e hmin h1 h2
  have hulp : fmt.ulp x = u := by unfold FloatFormat.ulp; rw [he, hu]
  unfold FloatFormat.roundQ
  rw [hulp, roundHalfEven_eq _ n hn]

theorem CFloat.roundQ_fifteen_quarters (T : CFloat) :
    T.format.roundQ ((5 : ℕ) * (3 / 4)) = 15 / 4 := by
  obtain ⟨hp, hm, _⟩ := T.format_ok
  have h := T.format.roundQ_dyadic (by omega) 15 (-2)
    (le_trans (by norm_num) (Nat.pow_le_pow_right (by norm_num) hp)) (by omega)
  have e : ((15 : ℕ) : ℚ) * (2 : ℚ) ^ (-2 : Int) = ((5 : ℕ) : ℚ) * (3 / 4) := by norm_num
  rw [e] at h
  rw [h]
  norm_num

theorem Machine.exampleZoomed_size (T : CFloat) :
    ∃ r, Machine.UpdateBitmap T Machine.specFitInside Machine.exampleZoomed = some r ∧
      r.1.m_content.width = 3 ∧ r.1.m_content.height = 3 := by
  obtain ⟨r, hr, _, hw, hh, _⟩ := Machine.UpdateBitmap_dims T Machine.specFitInside
    Machine.exampleZoomed (3 / 4) rfl (by norm_num) (by decide) (by decide)
    (by show ((5 : ℕ) : ℚ) * (3 / 4) ≤ 2 ^ 24; norm_num)
    (by show ((5 : ℕ) : ℚ) * (3 / 4) ≤ 2 ^ 24; norm_num)
  have hf : ⌊(15 / 4 : ℚ)⌋ = 3 := by
    rw [Int.floor_eq_iff]
    norm_num
  refine ⟨r, hr, ?_, ?_⟩
  · rw [hw]
    show ⌊T.format.roundQ (((5 : ℕ) : ℚ) * (3 / 4))⌋ = 3
    rw [T.roundQ_fifteen_quarters, hf]
  · rw [hh]
    show ⌊T.format.roundQ (((5 : ℕ) : ℚ) * (3 / 4))⌋ = 3
    rw [T.roundQ_fifteen_quarters, hf]

/-- C2 (as stated, refuted): a 5x5 image at zoom factor 0.75 is displayed as a
3x3 bitmap, whether the zoom factor is a `float` or a `double`, while
`round(5 * 0.75) = round(3.75) = 4`. -/
theorem UpdateBitmap_round_counterexample :
    (∃ r, Machine.UpdateBitmap CFloat.float Machine.specFitInside Machine.exampleZoomed =
        some r ∧ r.1.m_content.width = 3 ∧ r.1.m_content.height = 3) ∧
    (∃ r, Machine.UpdateBitmap CFloat.double Machine.specFitInside Machine.exampleZoomed =
        some r ∧ r.1.m_content.width = 3 ∧ r.1.m_content.height = 3) ∧
    round ((5 : ℚ) * (3 / 4)) = 4 := by
  refine ⟨Machine.exampleZoomed_size CFloat.float, Machine.exampleZoomed_size CFloat.double, ?_⟩
  rw [round_eq, Int.floor_eq_iff]
  norm_num

/-- C2 (amended): for a source image of size `w x h` and a zoom factor `f > 0`,
with `w`, `h`, `w * f` and `h * f` at most `2^24`, `UpdateBitmap` succeeds and
the displayed bitmap has size `int(w * f) x int(h * f)`: each floating-point
product, rounded to the type of the zoom factor, is truncated toward zero, not
rounded to the nearest integer, so each dimension lies between the floor and
the ceiling of the exact product. -/
theorem Machine_UpdateBitmap_size (T : CFloat) (fitInside : Machine.Viewer → Point)
    (s : Machine.Viewer) (f : ℚ) (hz : s.m_zoom_factor = FloatVal.finite f) (hf : 0 < f)
    (hw : s.m_orig_image.width ≤ 2 ^ 24) (hh : s.m_orig_image.height ≤ 2 ^ 24)
    (hwf : (s.m_orig_image.width : ℚ) * f ≤ 2 ^ 24)
    (hhf : (s.m_orig_image.height : ℚ) * f ≤ 2 ^ 24) :
    ∃ r, Machine.UpdateBitmap T fitInside s = some r ∧
      r.1.m_content.width = ⌊T.format.roundQ ((s.m_orig_image.width : ℚ) * f)⌋ ∧
      r.1.m_content.height = ⌊T.format.roundQ ((s.m_orig_image.height : ℚ) * f)⌋ ∧
      ⌊(s.m_orig_image.width : ℚ) * f⌋ ≤ r.1.m_content.width ∧
      r.1.m_content.width ≤ ⌈(s.m_orig_image.width : ℚ) * f⌉ ∧
      ⌊(s.m_orig_image.height : ℚ) * f⌋ ≤ r.1.m_content.height ∧
      r.1.m_content.height ≤ ⌈(s.m_orig_image.height : ℚ) * f⌉ := by
  obtain ⟨r, hr, _, h⟩ := Machine.UpdateBitmap_dims T fitInside s f hz hf.le hw hh hwf hhf
  exact ⟨r, hr, h⟩

/-- The 100x100 image at `0.01f`: all hypotheses hold and the bitmap is between
`floor(0.99999998) = 0` and `ceil(0.99999998) = 1` wide. -/
theorem Machine_UpdateBitmap_size_witness :
    ∃ r, Machine.UpdateBitmap CFloat.float Machine.specFitInside Machine.exampleHundredth =
        some r ∧
      ⌊((100 : ℕ) : ℚ) * (5368709 / 536870912)⌋ ≤ r.1.m_content.width ∧
      r.1.m_content.width ≤ ⌈((100 : ℕ) : ℚ) * (5368709 / 536870912)⌉ := by
  obtain ⟨r, hr, _, _, h1, h2, _⟩ := Machine_UpdateBitmap_size CFloat.float
    Machine.specFitInside Machine.exampleHundredth (5368709 / 536870912) rfl (by norm_num)
    (by decide) (by decide)
    (by show ((100 : ℕ) : ℚ) * (5368709 / 536870912) ≤ 2 ^ 24; norm_num)
    (by show ((100 : ℕ) : ℚ) * (5368709 / 536870912) ≤ 2 ^ 24; norm_num)
  exact ⟨r, hr, h1, h2⟩

/-- The `float` nearest to 0.01 is `5368709 / 2^29`, and a 100x100 image at that
factor is displayed as 1x1 although `floor(100 * 0.01f) = 0`: the product
`0.99999998` rounds to `1.0f` before the truncation. -/
theorem Machine.exampleHundredth_size :
    binary32.roundQ (1 / 100) = 5368709 / 536870912 ∧
    ⌊((100 : ℕ) : ℚ) * (5368709 / 536870912)⌋ = 0 ∧
    ∃ r, Machine.UpdateBitmap CFloat.float Machine.specFitInside Machine.exampleHundredth =
        some r ∧ r.1.m_content.width = 1 ∧ r.1.m_content.height = 1 := by
  have hz : binary32.roundQ (1 / 100) = 5368709 / 536870912 := by
    rw [binary32.roundQ_eq (1 / 100) (-7) 10737418 (1 / 1073741824) (by decide)
      (by norm_num [abs_of_pos]) (by norm_num [abs_of_pos]) (by norm_num [binary32])
      (by norm_num [abs_lt])]
    norm_num
  have hp : binary32.roundQ (((100 : ℕ) : ℚ) * (5368709 / 536870912)) = 1 := by
    rw [binary32.roundQ_eq _ (-1) 16777216 (1 / 16777216) (by decide)
      (by norm_num [abs_of_pos]) (by norm_num [abs_of_pos]) (by norm_num [binary32])
      (by norm_num [abs_lt])]
    norm_num
  refine ⟨hz, ?_, ?_⟩
  · rw [Int.floor_eq_iff]
    norm_num
  · obtain ⟨r, hr, _, hw, hh, _⟩ := Machine.UpdateBitmap_dims CFloat.float
      Machine.specFitInside Machine.exampleHundredth (5368709 / 536870912) rfl (by norm_num)
      (by decide) (by decide)
      (by show ((100 : ℕ) : ℚ) * (5368709 / 536870912) ≤ 2 ^ 24; norm_num)
      (by show ((100 : ℕ) : ℚ) * (5368709 / 536870912) ≤ 2 ^ 24; norm_num)
    refine ⟨r, hr, ?_, ?_⟩
    · rw [hw]
      show ⌊binary32.roundQ (((100 : ℕ) : ℚ) * (5368709 / 536870912))⌋ = 1
      rw [hp]; simp
    · rw [hh]
      show ⌊binary32.roundQ (((100 : ℕ) : ℚ) * (5368709 / 536870912))⌋ = 1
      rw [hp]; simp

theorem Machine.min_finite (a b : ℚ) :
    FloatVal.min (FloatVal.finite a) (FloatVal.finite b) = FloatVal.finite (min a b) := by
  unfold FloatVal.min FloatVal.lt
  rcases le_or_lt a b with h | h
  · simp [min_eq_left h, not_lt.mpr h]
  · simp [min_eq_right h.le, h]

/-- The quotient `float(V) / float(n)` for `V ≤ 2^22` and `0 < n ≤ 2^24`: it is
the correctly rounded quotient, and multiplying it back by `n` misses `V` by at
most a quarter. -/
theorem Machine.quotient (V n : Nat) (hV : V ≤ 2 ^ 22) (hn0 : 0 < n) (hn : n ≤ 2 ^ 24) :
    FloatVal.div binary32 (FloatVal.ofInt binary32 (V : Int))
        (FloatVal.ofInt binary32 (n : Int)) =
      FloatVal.finite (binary32.roundQ ((V : ℚ) / (n : ℚ))) ∧
    0 ≤ binary32.roundQ ((V : ℚ) / (n : ℚ)) ∧
    |binary32.roundQ ((V : ℚ) / (n : ℚ)) - (V : ℚ) / (n : ℚ)| ≤
      (V : ℚ) / (n : ℚ) / 2 ^ 24 ∧
    |(n : ℚ) * binary32.roundQ ((V : ℚ) / (n : ℚ)) - (V : ℚ)| ≤ 1 / 4 := by
  have hnq : (0 : ℚ) < (n : ℚ) := Nat.cast_pos.mpr hn0
  have hn1 : (1 : ℚ) ≤ (n : ℚ) := by exact_mod_cast hn0
  have hVq : (V : ℚ) ≤ 4194304 := by
    have h := hV
    norm_num at h
    exact_mod_cast h
  have hnq24 : (n : ℚ) ≤ 16777216 := by
    have h := hn
    norm_num at h
    exact_mod_cast h
  have hx0 : 0 ≤ (V : ℚ) / (n : ℚ) := div_nonneg (Nat.cast_nonneg V) hnq.le
  have hxV : (V : ℚ) / (n : ℚ) ≤ (V : ℚ) := div_le_self (Nat.cast_nonneg V) hn1
  have ha0 := binary32.roundQ_nonneg _ hx0
  have haV : binary32.roundQ ((V : ℚ) / (n : ℚ)) ≤ (V : ℚ) := by
    have := binary32.roundQ_mono (by decide) hx0 hxV
    rwa [binary32.roundQ_natCast_small (by decide) (by decide) V
      (le_trans hV (by norm_num))] at this
  have herr : |binary32.roundQ ((V : ℚ) / (n : ℚ)) - (V : ℚ) / (n : ℚ)| ≤
      (V : ℚ) / (n : ℚ) / 2 ^ 24 := by
    rcases Nat.eq_zero_or_pos V with h0 | h0
    · rw [h0]
      simp [binary32.roundQ_zero]
    · have hV1 : (1 : ℚ) ≤ (V : ℚ) := by exact_mod_cast h0
      have hx : (2 : ℚ) ^ binary32.emin ≤ (V : ℚ) / (n : ℚ) := by
        have h1 : (2 : ℚ) ^ binary32.emin ≤ 1 / 16777216 := by
          show (2 : ℚ) ^ (-126 : Int) ≤ 1 / 16777216
          have h2 : (2 : ℚ) ^ (-126 : Int) ≤ (2 : ℚ) ^ (-24 : Int) :=
            zpow_le_zpow_right₀ (by norm_num) (by norm_num)
          have h3 : (2 : ℚ) ^ (-24 : Int) = 1 / 16777216 := by norm_num
          linarith
        have h4 : (1 : ℚ) / 16777216 ≤ (V : ℚ) / (n : ℚ) := by
          rw [div_le_div_iff₀ (by norm_num) hnq]
          nlinarith
        linarith
      exact binary32.roundQ_error _ hx
  refine ⟨?_, ha0, herr, ?_⟩
  · rw [FloatVal.ofInt_natCast binary32 (by decide) (by decide) (by decide) V
        (le_trans hV (by norm_num)),
      FloatVal.ofInt_natCast binary32 (by decide) (by decide) (by decide) n hn]
    show (if (n : ℚ) = 0 then _ else binary32.round ((V : ℚ) / (n : ℚ))) = _
    rw [if_neg hnq.ne']
    apply binary32.round_eq_finite
    apply binary32.lt_zpow_emax (by decide) _ ha0
    linarith
  · have h1 : (n : ℚ) * binary32.roundQ ((V : ℚ) / (n : ℚ)) - (V : ℚ) =
        (n : ℚ) * (binary32.roundQ ((V : ℚ) / (n : ℚ)) - (V : ℚ) / (n : ℚ)) := by
      field_simp
      ring
    rw [h1, abs_mul, abs_of_pos hnq]
    have h2 : (n : ℚ) * ((V : ℚ) / (n : ℚ) / 2 ^ 24) = (V : ℚ) / 2 ^ 24 := by
      field_simp
      ring
    calc (n : ℚ) * |binary32.roundQ ((V : ℚ) / (n : ℚ)) - (V : ℚ) / (n : ℚ)|
        ≤ (n : ℚ) * ((V : ℚ) / (n : ℚ) / 2 ^ 24) := mul_le_mul_of_nonneg_left herr hnq.le
      _ = (V : ℚ) / 2 ^ 24 := h2
      _ ≤ 1 / 4 := by
        rw [div_le_iff₀ (by norm_num)]
        norm_num
        linarith

/-- One axis of the fitted bitmap: a product within a quarter above `V` is
truncated to at most `V`, and one within a quarter of `V` to at least `V - 1`. -/
theorem Machine.fit_axis (T : CFloat) (V : Nat) (x : ℚ) (hV : V ≤ 2 ^ 22) (hx0 : 0 ≤ x)
    (hup : x ≤ (V : ℚ) + 1 / 4) :
    ⌊T.format.roundQ x⌋ ≤ (V : Int) ∧
      ((V : ℚ) - 1 / 4 ≤ x → (V : Int) - 1 ≤ ⌊T.format.roundQ x⌋) := by
  obtain ⟨hp, hm, _⟩ := T.format_ok
  have hp1 : 1 ≤ T.format.prec := by omega
  constructor
  · have hrep := T.format.roundQ_half_small hp hm (2 * V + 1)
      (by have := hV; norm_num at this ⊢; omega)
    have hle : x ≤ ((2 * V + 1 : ℕ) : ℚ) / 2 := by push_cast; linarith
    have := T.format.roundQ_mono hp1 hx0 hle
    rw [hrep] at this
    have hlt : T.format.roundQ x < (((V : Int) + 1 : Int) : ℚ) := by
      push_cast at this ⊢
      linarith
    have := Int.floor_lt.mpr hlt
    omega
  · intro hlow
    rcases Nat.eq_zero_or_pos V with h0 | h0
    · have := Int.floor_nonneg.mpr (T.format.roundQ_nonneg x hx0)
      rw [h0]
      simp only [Nat.cast_zero]
      omega
    · have hrep := T.format.roundQ_half_small hp hm (2 * V - 1)
        (by have := hV; norm_num at this ⊢; omega)
      have hcast : ((2 * V - 1 : ℕ) : ℚ) = 2 * (V : ℚ) - 1 := by
        rw [Nat.cast_sub (by omega)]
        push_cast
        ring
      have hV1 : (1 : ℚ) ≤ (V : ℚ) := by exact_mod_cast h0
      have hle : ((2 * V - 1 : ℕ) : ℚ) / 2 ≤ x := by rw [hcast]; linarith
      have h0' : (0 : ℚ) ≤ ((2 * V - 1 : ℕ) : ℚ) / 2 := by rw [hcast]; linarith
      have := T.format.roundQ_mono hp1 h0' hle
      rw [hrep, hcast] at this
      apply Int.le_floor.mpr
      push_cast
      linarith

theorem Machine.SetBestFitZoom_core (T : CFloat) (fitInside : Machine.Viewer → Point)
    (s : Machine.Viewer) (W H : Nat) (hsx : s.size.x = (W : Int)) (hsy : s.size.y = (H : Int))
    (hW : W ≤ 2 ^ 22) (hH : H ≤ 2 ^ 22)
    (hw0 : 0 < s.m_orig_image.width) (hw : s.m_orig_image.width ≤ 2 ^ 24)
    (hh0 : 0 < s.m_orig_image.height) (hh : s.m_orig_image.height ≤ 2 ^ 24) :
    ∃ r, Machine.SetBestFitZoom T fitInside s = some r ∧
      r.1.m_zoom_factor = FloatVal.finite
        (min (binary32.roundQ ((W : ℚ) / (s.m_orig_image.width : ℚ)))
          (binary32.roundQ ((H : ℚ) / (s.m_orig_image.height : ℚ)))) ∧
      r.1.m_content.width = ⌊T.format.roundQ ((s.m_orig_image.width : ℚ) *
        min (binary32.roundQ ((W : ℚ) / (s.m_orig_image.width : ℚ)))
          (binary32.roundQ ((H : ℚ) / (s.m_orig_image.height : ℚ))))⌋ ∧
      r.1.m_content.height = ⌊T.format.roundQ ((s.m_orig_image.height : ℚ) *
        min (binary32.roundQ ((W : ℚ) / (s.m_orig_image.width : ℚ)))
          (binary32.roundQ ((H : ℚ) / (s.m_orig_image.height : ℚ))))⌋ ∧
      |min (binary32.roundQ ((W : ℚ) / (s.m_orig_image.width : ℚ)))
          (binary32.roundQ ((H : ℚ) / (s.m_orig_image.height : ℚ))) -
        min ((W : ℚ) / (s.m_orig_image.width : ℚ)) ((H : ℚ) / (s.m_orig_image.height : ℚ))| ≤
        min ((W : ℚ) / (s.m_orig_image.width : ℚ))
          ((H : ℚ) / (s.m_orig_image.height : ℚ)) / 2 ^ 24 ∧
      r.1.m_content.width ≤ (W : Int) ∧ r.1.m_content.height ≤ (H : Int) ∧
      ((W : Int) - 1 ≤ r.1.m_content.width ∨ (H : Int) - 1 ≤ r.1.m_content.height) := by
  obtain ⟨qa1, qa2, qa3, qa4⟩ := Machine.quotient W s.m_orig_image.width hW hw0 hw
  obtain ⟨qb1, qb2, qb3, qb4⟩ := Machine.quotient H s.m_orig_image.height hH hh0 hh
  generalize ha : binary32.roundQ ((W : ℚ) / (s.m_orig_image.width : ℚ)) = a at *
  generalize hb : binary32.roundQ ((H : ℚ) / (s.m_orig_image.height : ℚ)) = b at *
  have hwq : (0 : ℚ) < (s.m_orig_image.width : ℚ) := Nat.cast_pos.mpr hw0
  have hhq : (0 : ℚ) < (s.m_orig_image.height : ℚ) := Nat.cast_pos.mpr hh0
  have hWq : (W : ℚ) ≤ 4194304 := by
    have h := hW
    norm_num at h
    exact_mod_cast h
  have hHq : (H : ℚ) ≤ 4194304 := by
    have h := hH
    norm_num at h
    exact_mod_cast h
  have hz0 : 0 ≤ min a b := le_min qa2 qb2
  rw [abs_le] at qa4 qb4
  have hwz : (s.m_orig_image.width : ℚ) * min a b ≤ (W : ℚ) + 1 / 4 := by
    have := mul_le_mul_of_nonneg_left (min_le_left a b) hwq.le
    linarith
  have hhz : (s.m_orig_image.height : ℚ) * min a b ≤ (H : ℚ) + 1 / 4 := by
    have := mul_le_mul_of_nonneg_left (min_le_right a b) hhq.le
    linarith
  have hset : Machine.SetBestFitZoom T fitInside s =
      Machine.UpdateBitmap T fitInside { s with m_zoom_factor := FloatVal.finite (min a b) } := by
    unfold Machine.SetBestFitZoom Machine.SetZoom
    simp only [hsx, hsy, qa1, qb1, Machine.min_finite]
  obtain ⟨r, hr, rz, rw1, rh1, _⟩ := Machine.UpdateBitmap_dims T fitInside
    { s with m_zoom_factor := FloatVal.finite (min a b) } (min a b) rfl hz0 hw hh
    (by show (s.m_orig_image.width : ℚ) * min a b ≤ 2 ^ 24; norm_num; linarith)
    (by show (s.m_orig_image.height : ℚ) * min a b ≤ 2 ^ 24; norm_num; linarith)
  have hx0 : 0 ≤ (s.m_orig_image.width : ℚ) * min a b := mul_nonneg hwq.le hz0
  have hy0 : 0 ≤ (s.m_orig_image.height : ℚ) * min a b := mul_nonneg hhq.le hz0
  obtain ⟨fw1, fw2⟩ := Machine.fit_axis T W _ hW hx0 hwz
  obtain ⟨fh1, fh2⟩ := Machine.fit_axis T H _ hH hy0 hhz
  refine ⟨r, hset.trans hr, rz, rw1, rh1, ?_, ?_, ?_, ?_⟩
  · rcases le_total ((W : ℚ) / (s.m_orig_image.width : ℚ))
        ((H : ℚ) / (s.m_orig_image.height : ℚ)) with h | h
    · have hab : a ≤ b := by
        rw [← ha, ← hb]
        exact binary32.roundQ_mono (by decide) (div_nonneg (Nat.cast_nonneg W) hwq.le) h
      rw [min_eq_left h, min_eq_left hab]
      exact qa3
    · have hab : b ≤ a := by
        rw [← ha, ← hb]
        exact binary32.roundQ_mono (by decide) (div_nonneg (Nat.cast_nonneg H) hhq.le) h
      rw [min_eq_right h, min_eq_right hab]
      exact qb3
  · rw [rw1]; exact fw1
  · rw [rh1]; exact fh1
  · rcases le_total a b with h | h
    · left
      rw [rw1]
      apply fw2
      rw [min_eq_left h]
      linarith
    · right
      rw [rh1]
      apply fh2
      rw [min_eq_right h]
      linarith

theorem Machine.exampleBestFit_values (T : CFloat) :
    min (binary32.roundQ (((500 : ℕ) : ℚ) / ((1000 : ℕ) : ℚ)))
        (binary32.roundQ (((500 : ℕ) : ℚ) / ((500 : ℕ) : ℚ))) = 1 / 2 ∧
    ⌊T.format.roundQ (((1000 : ℕ) : ℚ) * (1 / 2))⌋ = 500 ∧
    ⌊T.format.roundQ (((500 : ℕ) : ℚ) * (1 / 2))⌋ = 250 := by
  obtain ⟨hp, hm, _⟩ := T.format_ok
  have h1 : binary32.roundQ (((500 : ℕ) : ℚ) / ((1000 : ℕ) : ℚ)) = 1 / 2 := by
    have h := binary32.roundQ_half_small (by decide) (by decide) 1 (by norm_num)
    have e : ((500 : ℕ) : ℚ) / ((1000 : ℕ) : ℚ) = ((1 : ℕ) : ℚ) / 2 := by norm_num
    rw [e, h]
    norm_num
  have h2 : binary32.roundQ (((500 : ℕ) : ℚ) / ((500 : ℕ) : ℚ)) = 1 := by
    have h := binary32.roundQ_natCast_small (by decide) (by decide) 1 (by norm_num)
    have e : ((500 : ℕ) : ℚ) / ((500 : ℕ) : ℚ) = ((1 : ℕ) : ℚ) := by norm_num
    rw [e, h]
    norm_num
  have h3 : T.format.roundQ (((1000 : ℕ) : ℚ) * (1 / 2)) = ((500 : ℕ) : ℚ) := by
    have h := T.format.roundQ_natCast_small hp hm 500 (by norm_num)
    have e : ((1000 : ℕ) : ℚ) * (1 / 2) = ((500 : ℕ) : ℚ) := by norm_num
    rw [e, h]
  have h4 : T.format.roundQ (((500 : ℕ) : ℚ) * (1 / 2)) = ((250 : ℕ) : ℚ) := by
    have h := T.format.roundQ_natCast_small hp hm 250 (by norm_num)
    have e : ((500 : ℕ) : ℚ) * (1 / 2) = ((250 : ℕ) : ℚ) := by norm_num
    rw [e, h]
  refine ⟨?_, ?_, ?_⟩
  · rw [h1, h2]
    norm_num
  · rw [h3, Int.floor_natCast]
    rfl
  · rw [h4, Int.floor_natCast]
    rfl

/-- The 1240x1754 page in the 500x500 window with a `float` zoom factor: the
factor is the `float` `9565117 / 2^25 = 0.28506270...`, not `250/877`, and the
bitmap is 353x499: the height misses the viewport by one pixel. -/
theorem Machine.examplePage_size :
    ∃ r, Machine.SetBestFitZoom CFloat.float Machine.specFitInside Machine.examplePage =
        some r ∧
      r.1.m_zoom_factor = FloatVal.finite (9565117 / 33554432) ∧
      r.1.m_content.width = 353 ∧ r.1.m_content.height = 499 := by
  obtain ⟨r, h1, h2, h3, h4, _⟩ :=
    Machine.SetBestFitZoom_core CFloat.float Machine.specFitInside Machine.examplePage 500 500
      rfl rfl (by norm_num) (by norm_num) (by decide)
      (by show (1240 : Nat) ≤ 2 ^ 24; norm_num) (by decide)
      (by show (1754 : Nat) ≤ 2 ^ 24; norm_num)
  have ea : binary32.roundQ (((500 : ℕ) : ℚ) / ((1240 : ℕ) : ℚ)) = 13530013 / 33554432 := by
    rw [binary32.roundQ_eq _ (-2) 13530013 (1 / 33554432) (by decide)
      (by norm_num [abs_of_pos]) (by norm_num [abs_of_pos]) (by norm_num [binary32])
      (by norm_num [abs_lt])]
    norm_num
  have eb : binary32.roundQ (((500 : ℕ) : ℚ) / ((1754 : ℕ) : ℚ)) = 9565117 / 33554432 := by
    rw [binary32.roundQ_eq _ (-2) 9565117 (1 / 33554432) (by decide)
      (by norm_num [abs_of_pos]) (by norm_num [abs_of_pos]) (by norm_num [binary32])
      (by norm_num [abs_lt])]
    norm_num
  have em : min (13530013 / 33554432 : ℚ) (9565117 / 33554432) = 9565117 / 33554432 := by
    norm_num
  have ew : binary32.roundQ (((1240 : ℕ) : ℚ) * (9565117 / 33554432)) = 11582759 / 32768 := by
    rw [binary32.roundQ_eq _ 8 11582759 (1 / 32768) (by decide)
      (by norm_num [abs_of_pos]) (by norm_num [abs_of_pos]) (by norm_num [binary32])
      (by norm_num [abs_lt])]
    norm_num
  have eh : binary32.roundQ (((1754 : ℕ) : ℚ) * (9565117 / 33554432)) = 16383999 / 32768 := by
    rw [binary32.roundQ_eq _ 8 16383999 (1 / 32768) (by decide)
      (by norm_num [abs_of_pos]) (by norm_num [abs_of_pos]) (by norm_num [binary32])
      (by norm_num [abs_lt])]
    norm_num
  have fw : ⌊(11582759 / 32768 : ℚ)⌋ = 353 := by
    rw [Int.floor_eq_iff]
    norm_num
  have fh : ⌊(16383999 / 32768 : ℚ)⌋ = 499 := by
    rw [Int.floor_eq_iff]
    norm_num
  have hwd : Machine.examplePage.m_orig_image.width = 1240 := rfl
  have hht : Machine.examplePage.m_orig_image.height = 1754 := rfl
  rw [hwd, hht] at h2 h3 h4
  rw [ea, eb, em] at h2 h3 h4
  refine ⟨r, h1, h2, ?_, ?_⟩
  · rw [h3]
    show ⌊binary32.roundQ (((1240 : ℕ) : ℚ) * (9565117 / 33554432))⌋ = 353
    rw [ew, fw]
  · rw [h4]
    show ⌊binary32.roundQ (((1754 : ℕ) : ℚ) * (9565117 / 33554432))⌋ = 499
    rw [eh, fh]

/-- With machine arithmetic, zoom factor 1.0 shows an image of at most `2^24` by
`2^24` pixels unscaled, as with exact arithmetic. -/
theorem Machine_scaledBitmap_one (T : CFloat) (img : Image) (hw : img.width ≤ 2 ^ 24)
    (hh : img.height ≤ 2 ^ 24) :
    Machine.scaledBitmap T img (FloatVal.finite 1) = some (Bitmap.ofImage img) ∧
      some (scaledBitmap img 1) = Machine.scaledBitmap T img (FloatVal.finite 1) := by
  obtain ⟨hp, hm, _⟩ := T.format_ok
  have hbound : ∀ n : Nat, n ≤ 2 ^ 24 → (n : ℚ) * 1 ≤ 2 ^ 24 := by
    intro n hn
    rw [mul_one]
    exact_mod_cast hn
  have hval : ∀ n : Nat, n ≤ 2 ^ 24 → ⌊T.format.roundQ ((n : ℚ) * 1)⌋ = (n : Int) := by
    intro n hn
    rw [mul_one, T.format.roundQ_natCast_small hp hm n hn, Int.floor_natCast]
  obtain ⟨w1, _⟩ := Machine.target_dim T img.width 1 hw (by norm_num) (hbound _ hw)
  obtain ⟨h1, _⟩ := Machine.target_dim T img.height 1 hh (by norm_num) (hbound _ hh)
  rw [hval _ hw] at w1
  rw [hval _ hh] at h1
  have hm1 : Machine.scaledBitmap T img (FloatVal.finite 1) = some (Bitmap.ofImage img) := by
    unfold Machine.scaledBitmap
    rw [w1, h1]
    simp
  exact ⟨hm1, by rw [hm1, scaledBitmap_one]⟩

/-- With machine arithmetic too, a resampled bitmap has high quality exactly when
the zoom factor compares below 1.0. -/
theorem Machine_scaledBitmap_quality (T : CFloat) (img : Image) (zoom : FloatVal)
    (bmp : Bitmap) (h : Machine.scaledBitmap T img zoom = some bmp)
    (hr : bmp.isResampled = true) :
    bmp.quality? =
      some (if zoom.lt (FloatVal.finite 1) then Quality.high else Quality.normal) := by
  unfold Machine.scaledBitmap at h
  split at h
  · split at h
    · injection h with h
      rw [← h]
      rfl
    · injection h with h
      rw [← h] at hr
      exact absurd hr (by simp [Bitmap.isResampled])
  · exact absurd h (by simp)

end BmpViewer
